import Mathlib

/-!
# A shallow embedding of the `sentinel` slog-redaction hook

This file models the Go package `sentinel` (the deep-copy variant of
`ReplaceAttr` / `processValue` / `processAny` / `processStruct` /
`processSliceOrArray` / `processMap`), which walks a `slog.Value`,
deep-copies it, and zeroes every struct field whose `sentinel` struct tag
is non-empty.

Modelling conventions:
* Go runtime values are the inductive `GoVal`; Go types are `GoTy`.
  Struct fields carry their reflection metadata (name, `sentinel` tag,
  exportedness, declared type) next to the field value, exactly the data
  `reflect.StructField` supplies.  Field, element, entry and attr lists
  are bespoke mutual list types (`Fields`, `VList`, `EList`) so that
  equality is decidable.
* Pointers are `ptrV ty addr vid`: `addr = none` is a nil pointer;
  `vid = some i` means the pointer's type implements `slog.LogValuer`,
  and the environment `venv i` is what `LogValue()` returns.  Pointer
  targets live in a heap (an association list `Nat ↦ GoVal`), so that
  `rv.Pointer()`-based cycle detection is expressible.  Interface-kind
  reflect values (pointers to interfaces) are outside the modelled domain.
* `slog.Value` is `SlogVal`; group values alias a backing attr array, so
  `groupV g` is an address into a group heap `GHeap` that the walker
  threads through (the Go code mutates the backing array in place).
* Go assignability (`reflect.Type.AssignableTo`) is type equality; the
  modelled domain has no interface-typed slots, where assignability is
  coarser.
* `reflect.Value.Type` on the zero `reflect.Value` (i.e. on
  `reflect.ValueOf(nil)`) panics, and `reflect.Value.IsNil` panics on
  array values; both are modelled by `Out.panicked`.
* The recursion is fuel-indexed (`Out.hungry` when fuel runs out); the Go
  functions have no fuel, so every statement about termination or
  divergence quantifies over fuel.
-/

namespace Sentinel

mutual

/-- Go types, as far as the walker inspects them. `valuerT i` is a named
non-pointer type implementing `slog.LogValuer`; `attrsT` is `[]slog.Attr`,
the dynamic type of `Value.Any()` on a group value. -/
inductive GoTy where
  | intT : GoTy
  | int64T : GoTy
  | strT : GoTy
  | boolT : GoTy
  | ptrT (elem : GoTy) : GoTy
  | sliceT (elem : GoTy) : GoTy
  | arrayT (len : Nat) (elem : GoTy) : GoTy
  | mapT (key : GoTy) (val : GoTy) : GoTy
  | structT (sig : Sig) : GoTy
  | valuerT (vid : Nat) : GoTy
  | attrsT : GoTy
  deriving DecidableEq

/-- A struct type's field signature: name, `sentinel` tag, exportedness
and declared type for each field, in declaration order. -/
inductive Sig where
  | nil : Sig
  | cons (name tag : String) (exported : Bool) (ty : GoTy) (rest : Sig) : Sig
  deriving DecidableEq

end

mutual

/-- Go runtime values.  `nilSliceV`/`nilMapV` are nil slices/maps,
`sliceV`/`mapV` are present (possibly empty) ones; `arrayV` is a (never
nil) array.  `valuerV i` is a value of a non-pointer `LogValuer` type
whose `LogValue()` yields `venv i`; `attrsOf g` is the `[]slog.Attr`
backing array of group `g`. -/
inductive GoVal where
  | nilV : GoVal
  | intV (n : Int) : GoVal
  | int64V (n : Int) : GoVal
  | strV (s : String) : GoVal
  | boolV (b : Bool) : GoVal
  | structV (fields : Fields) : GoVal
  | nilSliceV (elem : GoTy) : GoVal
  | sliceV (elem : GoTy) (elems : VList) : GoVal
  | arrayV (elem : GoTy) (elems : VList) : GoVal
  | nilMapV (kt vt : GoTy) : GoVal
  | mapV (kt vt : GoTy) (entries : EList) : GoVal
  | ptrV (elem : GoTy) (addr : Option Nat) (vid : Option Nat) : GoVal
  | valuerV (vid : Nat) : GoVal
  | attrsOf (gaddr : Nat) : GoVal
  deriving DecidableEq

/-- The fields of a struct value: reflection metadata plus the value. -/
inductive Fields where
  | nil : Fields
  | cons (name tag : String) (exported : Bool) (ty : GoTy) (val : GoVal)
      (rest : Fields) : Fields
  deriving DecidableEq

/-- Slice/array elements. -/
inductive VList where
  | nil : VList
  | cons (v : GoVal) (rest : VList) : VList
  deriving DecidableEq

/-- Map entries, in the (model-fixed) iteration order. -/
inductive EList where
  | nil : EList
  | cons (k v : GoVal) (rest : EList) : EList
  deriving DecidableEq

end

/-- `slog.Value`, by kind.  `anyV` is `KindAny` (or `KindLogValuer`, when
the stored value implements `slog.LogValuer` — `Value.Kind` tests that
dynamically); `groupV g` is a `KindGroup` value whose backing attr array
is at address `g` of the group heap; the remaining constructors are the
self-describing leaf kinds the walker returns unchanged. -/
inductive SlogVal where
  | anyV (x : GoVal) : SlogVal
  | strVal (s : String) : SlogVal
  | int64Val (n : Int) : SlogVal
  | boolVal (b : Bool) : SlogVal
  | groupV (gaddr : Nat) : SlogVal
  deriving DecidableEq

/-- `slog.Attr`. -/
structure Attr where
  key : String
  val : SlogVal
  deriving DecidableEq

/-- The heap behind pointers: address ↦ pointee. -/
abbrev Heap := List (Nat × GoVal)

/-- Backing arrays of group values: address ↦ attr list. -/
abbrev GHeap := List (Nat × List Attr)

/-- The per-call mutable state: the cycle tracker (`visited` pointer
addresses) and the group backing arrays. -/
structure St where
  visited : List Nat
  gh : GHeap
  deriving DecidableEq

/-- Dereference: the Go program only ever dereferences live pointers, so
a missing address defaults to `nilV` (it never arises on modelled runs). -/
def heapGet (h : Heap) (a : Nat) : GoVal :=
  (h.lookup a).getD .nilV

def ghGet (gh : GHeap) (g : Nat) : List Attr :=
  (gh.lookup g).getD []

def ghSet (gh : GHeap) (g : Nat) (as : List Attr) : GHeap :=
  (g, as) :: gh

/-- Outcome of a fuel-indexed run: a value, a Go panic, or out of fuel. -/
inductive Out (α : Type) where
  | ok (a : α) : Out α
  | panicked : Out α
  | hungry : Out α
  deriving DecidableEq

def obind {α β : Type} : Out α → (α → Out β) → Out β
  | .ok a, f => f a
  | .panicked, _ => .panicked
  | .hungry, _ => .hungry

/-- Does the value implement `slog.LogValuer`?  Go answers this from the
dynamic type: `valuerV` types do, and pointer types tagged with a `vid`
do (e.g. a pointer receiver `LogValue` method). -/
def isLogValuer : GoVal → Option Nat
  | .valuerV vid => some vid
  | .ptrV _ _ (some vid) => some vid
  | _ => none

/-- `slog.AnyValue`: leaf Go values get a typed slog kind (in particular
`int` becomes an `Int64Value`); everything else is stored as `KindAny`
(or observed as `KindLogValuer`, see `SlogVal.anyV`). -/
def slogAnyValue : GoVal → SlogVal
  | .intV n => .int64Val n
  | .int64V n => .int64Val n
  | .strV s => .strVal s
  | .boolV b => .boolVal b
  | x => .anyV x

/-- `slog.Value.Any()`: the dynamic Go value inside a `slog.Value`.  On a
group value it returns the `[]slog.Attr` backing array. -/
def anyOut : SlogVal → GoVal
  | .anyV x => x
  | .strVal s => .strV s
  | .int64Val n => .int64V n
  | .boolVal b => .boolV b
  | .groupV g => .attrsOf g

/-- The signature of a struct value, read off its fields. -/
def fieldsSig : Fields → Sig
  | .nil => .nil
  | .cons n tag ex ty _ rest => .cons n tag ex ty (fieldsSig rest)

def vlen : VList → Nat
  | .nil => 0
  | .cons _ rest => vlen rest + 1

def elen : EList → Nat
  | .nil => 0
  | .cons _ _ rest => elen rest + 1

/-- `reflect.ValueOf(x).Type()`: `none` models the panic on the zero
`reflect.Value` (when `x` is untyped nil). -/
def reflectTypeOf : GoVal → Option GoTy
  | .nilV => none
  | .intV _ => some .intT
  | .int64V _ => some .int64T
  | .strV _ => some .strT
  | .boolV _ => some .boolT
  | .structV fs => some (.structT (fieldsSig fs))
  | .nilSliceV t => some (.sliceT t)
  | .sliceV t _ => some (.sliceT t)
  | .arrayV t es => some (.arrayT (vlen es) t)
  | .nilMapV kt vt => some (.mapT kt vt)
  | .mapV kt vt _ => some (.mapT kt vt)
  | .ptrV t _ _ => some (.ptrT t)
  | .valuerV vid => some (.valuerT vid)
  | .attrsOf _ => some .attrsT

/-- `n` copies of a value, as slice/array elements. -/
def vreplicate : Nat → GoVal → VList
  | 0, _ => .nil
  | n + 1, v => .cons v (vreplicate n v)

mutual

/-- `reflect.Zero(t)`: the zero value of a declared type. -/
def zeroOf : GoTy → GoVal
  | .intT => .intV 0
  | .int64T => .int64V 0
  | .strT => .strV ""
  | .boolT => .boolV false
  | .ptrT t => .ptrV t none none
  | .sliceT t => .nilSliceV t
  | .arrayT n t => .arrayV t (vreplicate n (zeroOf t))
  | .mapT kt vt => .nilMapV kt vt
  | .structT sig => .structV (zeroFields sig)
  | .valuerT vid => .valuerV vid
  | .attrsT => .attrsOf 0

def zeroFields : Sig → Fields
  | .nil => .nil
  | .cons n tag ex t rest => .cons n tag ex t (zeroOf t) (zeroFields rest)

end

/-- `reflect.Value.SetMapIndex` on the model's entry list: overwrite the
entry of an existing key in place, otherwise append. -/
def upsert : EList → GoVal → GoVal → EList
  | .nil, k, v => .cons k v .nil
  | .cons k0 v0 rest, k, v =>
    if k0 = k then .cons k v rest else .cons k0 v0 (upsert rest k v)

section Walker

/- The fixed surroundings of a run: pointer targets and, for each
`LogValuer` id, the `slog.Value` its `LogValue()` returns. -/
variable (heap : Heap) (venv : Nat → SlogVal)

mutual

/-- `processValue`: dispatch on the `slog.Value` kind.  `KindLogValuer`
evaluates the valuer and recurses; `KindAny` goes to `processAny`;
`KindGroup` rewrites each attr of the backing array in place (the Go
code writes through the alias `v.Group()` returns) and rewraps it;
every other kind is returned as is. -/
def processValue : Nat → SlogVal → St → Out (SlogVal × St)
  | 0, _, _ => .hungry
  | fuel + 1, v, st =>
    match v with
    | .anyV x =>
      match isLogValuer x with
      | some vid => processValue fuel (venv vid) st
      | none => processAny fuel x st
    | .groupV g =>
      obind (processAttrs fuel (ghGet st.gh g) st) fun (as2, st1) =>
        .ok (.groupV g, { st1 with gh := ghSet st1.gh g as2 })
    | v => .ok (v, st)

/-- The `for i, attr := range attrs` loop of `processValue`'s group case. -/
def processAttrs : Nat → List Attr → St → Out (List Attr × St)
  | 0, _, _ => .hungry
  | fuel + 1, as, st =>
    match as with
    | [] => .ok ([], st)
    | a :: rest =>
      obind (processValue fuel a.val st) fun (r, st1) =>
      obind (processAttrs fuel rest st1) fun (rs, st2) =>
      .ok ({ a with val := r } :: rs, st2)

/-- `processAny`: nil check, then the `val.(slog.LogValuer)` test (before
any cycle bookkeeping), then the pointer loop. -/
def processAny : Nat → GoVal → St → Out (SlogVal × St)
  | 0, _, _ => .hungry
  | fuel + 1, x, st =>
    match x with
    | .nilV => .ok (.anyV .nilV, st)
    | x =>
      match isLogValuer x with
      | some vid => processValue fuel (venv vid) st
      | none => derefLoop fuel x st

/-- The `for rv.Kind() == reflect.Pointer || ... reflect.Interface` loop
of `processAny`: nil pointers normalize to `AnyValue(nil)`; an
already-visited address returns `AnyValue(rv.Interface())` — the pointer
itself, unredacted; a first visit is recorded, then the in-loop
`rv.Interface().(slog.LogValuer)` test runs, then the pointer is
dereferenced and the loop continues. -/
def derefLoop : Nat → GoVal → St → Out (SlogVal × St)
  | 0, _, _ => .hungry
  | fuel + 1, x, st =>
    match x with
    | .ptrV _ none _ => .ok (.anyV .nilV, st)
    | .ptrV ty (some a) vid =>
      if a ∈ st.visited then
        .ok (slogAnyValue (.ptrV ty (some a) vid), st)
      else
        let st1 : St := { st with visited := a :: st.visited }
        match vid with
        | some v => processValue fuel (venv v) st1
        | none => derefLoop fuel (heapGet heap a) st1
    | x => afterLoop fuel x st

/-- The `switch rv.Kind()` after the pointer loop. -/
def afterLoop : Nat → GoVal → St → Out (SlogVal × St)
  | 0, _, _ => .hungry
  | fuel + 1, x, st =>
    match x with
    | .structV fs => processStruct fuel fs st
    | .nilSliceV t => processSliceOrArray fuel (.nilSliceV t) st
    | .sliceV t es => processSliceOrArray fuel (.sliceV t es) st
    | .arrayV t es => processSliceOrArray fuel (.arrayV t es) st
    | .nilMapV kt vt => processMap fuel (.nilMapV kt vt) st
    | .mapV kt vt es => processMap fuel (.mapV kt vt es) st
    | x => .ok (slogAnyValue x, st)

/-- `processStruct`: copy the struct, rewrite its fields, wrap the copy
in `slog.AnyValue`. -/
def processStruct : Nat → Fields → St → Out (SlogVal × St)
  | 0, _, _ => .hungry
  | fuel + 1, fs, st =>
    obind (processFields fuel fs st) fun (fs2, st1) =>
    .ok (.anyV (.structV fs2), st1)

/-- The field loop of `processStruct`: unexported fields are skipped (the
copy keeps their original value); a non-empty `sentinel` tag zeroes the
field; otherwise the field is redacted recursively and written back only
when `reflect.TypeOf` of the result (which panics on nil) is assignable
to the declared field type. -/
def processFields : Nat → Fields → St → Out (Fields × St)
  | 0, _, _ => .hungry
  | fuel + 1, fs, st =>
    match fs with
    | .nil => .ok (.nil, st)
    | .cons n tag ex ty v rest =>
    if ex = false then
      obind (processFields fuel rest st) fun (rs, st1) =>
      .ok (.cons n tag ex ty v rs, st1)
    else if tag ≠ "" then
      obind (processFields fuel rest st) fun (rs, st1) =>
      .ok (.cons n tag ex ty (zeroOf ty) rs, st1)
    else
      obind (processAny fuel v st) fun (r, st1) =>
      match reflectTypeOf (anyOut r) with
      | none => .panicked
      | some t =>
        obind (processFields fuel rest st1) fun (rs, st2) =>
        .ok (.cons n tag ex ty (if t = ty then anyOut r else v) rs, st2)

/-- `processSliceOrArray`: `rv.IsNil()` panics on arrays; nil slices
normalize to `AnyValue(nil)`; otherwise a fresh slice is filled
element by element. -/
def processSliceOrArray : Nat → GoVal → St → Out (SlogVal × St)
  | 0, _, _ => .hungry
  | fuel + 1, x, st =>
    match x with
    | .arrayV _ _ => .panicked
    | .nilSliceV _ => .ok (.anyV .nilV, st)
    | .sliceV t es =>
      obind (processElems fuel t es st) fun (es2, st1) =>
      .ok (.anyV (.sliceV t es2), st1)
    | _ => .panicked

/-- The element loop of `processSliceOrArray`: each element is redacted;
`reflect.TypeOf` of the result panics on nil; an assignable result is
stored, otherwise the slot keeps the original element. -/
def processElems : Nat → GoTy → VList → St → Out (VList × St)
  | 0, _, _, _ => .hungry
  | fuel + 1, ty, es, st =>
    match es with
    | .nil => .ok (.nil, st)
    | .cons e rest =>
    obind (processAny fuel e st) fun (r, st1) =>
    match reflectTypeOf (anyOut r) with
    | none => .panicked
    | some t =>
      obind (processElems fuel ty rest st1) fun (rs, st2) =>
      .ok (.cons (if t = ty then anyOut r else e) rs, st2)

/-- `processMap`: nil maps normalize to `AnyValue(nil)`; otherwise the
entries are redacted into a fresh map. -/
def processMap : Nat → GoVal → St → Out (SlogVal × St)
  | 0, _, _ => .hungry
  | fuel + 1, x, st =>
    match x with
    | .nilMapV _ _ => .ok (.anyV .nilV, st)
    | .mapV kt vt es =>
      obind (processEntries fuel kt vt es .nil st) fun (es2, st1) =>
      .ok (.anyV (.mapV kt vt es2), st1)
    | _ => .panicked

/-- The entry loop of `processMap`: key and value are both redacted (in
that order) before the assignability test.  The test mirrors Go's
`processedKey.Type().AssignableTo(..) && processedValue.Type().AssignableTo(..)`:
`reflect.TypeOf` of the redacted key runs first (panicking on a nil
result); if the key is not assignable, `&&` short-circuits — the
redacted value's type is never inspected and the entry is dropped;
otherwise the value's type is taken (panicking on nil) and the entry is
`SetMapIndex`ed into the new map only when it too is assignable. -/
def processEntries : Nat → GoTy → GoTy → EList → EList → St → Out (EList × St)
  | 0, _, _, _, _, _ => .hungry
  | fuel + 1, kt, vt, es, acc, st =>
    match es with
    | .nil => .ok (acc, st)
    | .cons k v rest =>
    obind (processAny fuel k st) fun (rk, st1) =>
    obind (processAny fuel v st1) fun (rv, st2) =>
    match reflectTypeOf (anyOut rk) with
    | none => .panicked
    | some tk =>
      if tk = kt then
        match reflectTypeOf (anyOut rv) with
        | none => .panicked
        | some tv =>
          processEntries fuel kt vt rest
            (if tv = vt then upsert acc (anyOut rk) (anyOut rv) else acc) st2
      else
        processEntries fuel kt vt rest acc st2

end

/-- `ReplaceAttr` (the deep-copy variant the spec adopts as canonical):
allocate a fresh, empty cycle tracker, rewrite the attribute's value,
and hand the attribute back.  `groups` is accepted and ignored. -/
def ReplaceAttr (fuel : Nat) (groups : List String) (a : Attr) (gh : GHeap) :
    Out (Attr × GHeap) :=
  obind (processValue heap venv fuel a.val ⟨[], gh⟩) fun (v, st) =>
  .ok ({ a with val := v }, st.gh)

end Walker

/-! ## Access helpers for statements -/

/-- The `i`-th field of a struct value, with its reflection metadata. -/
def fieldAt : Fields → Nat → Option (String × String × Bool × GoTy × GoVal)
  | .nil, _ => none
  | .cons n tag ex ty v _, 0 => some (n, tag, ex, ty, v)
  | .cons _ _ _ _ _ rest, i + 1 => fieldAt rest i

/-- The `i`-th element of a slice/array value. -/
def vAt : VList → Nat → Option GoVal
  | .nil, _ => none
  | .cons v _, 0 => some v
  | .cons _ rest, i + 1 => vAt rest i

/-- The keys of a map value's entries, in order. -/
def keysOf : EList → List GoVal
  | .nil => []
  | .cons k _ rest => k :: keysOf rest

/-- A map value's entries as a `List`. -/
def entriesOf : EList → List (GoVal × GoVal)
  | .nil => []
  | .cons k v rest => (k, v) :: entriesOf rest

/-- Did a run complete and hand back a reference-kind (`ptrV`) value? -/
def refResult : Out (SlogVal × St) → Bool
  | .ok (.anyV (.ptrV _ _ _), _) => true
  | _ => false

/-! ## Concrete fixtures (the example program's `Nested` struct and
friends), used by counterexamples and witnesses -/

/-- `type Nested struct { Secret string `sentinel:"true"`; Data string }`. -/
def nestedTy : GoTy :=
  .structT (.cons "Secret" "true" true .strT (.cons "Data" "" true .strT .nil))

/-- `Nested{Secret: "TopSecret", Data: "PublicData"}`. -/
def nestedVal : GoVal :=
  .structV (.cons "Secret" "true" true .strT (.strV "TopSecret")
    (.cons "Data" "" true .strT (.strV "PublicData") .nil))

/-- `nestedVal` after redaction: `Secret` zeroed, `Data` kept. -/
def nestedRed : GoVal :=
  .structV (.cons "Secret" "true" true .strT (.strV "")
    (.cons "Data" "" true .strT (.strV "PublicData") .nil))

/-- A heap with one `*Nested` target at address 7. -/
def heap0 : Heap := [(7, nestedVal)]

/-- A `LogValuer` environment whose valuers all yield a plain string. -/
def venv0 : Nat → SlogVal := fun _ => .strVal "enum-Two"

/-- A struct whose only field is unexported but carries the sentinel tag. -/
def unexpVal : GoVal :=
  .structV (.cons "secret" "true" false .strT (.strV "Top") .nil)

/-- A group backing array (address 0) holding the sensitive struct. -/
def gh0 : GHeap := [(0, [⟨"n", .anyV nestedVal⟩])]

/-- A self-referential resolvable: a pointer (heap address 0) whose type
implements `slog.LogValuer` (vid 0), and whose `LogValue()` returns
`slog.AnyValue` of the pointer itself. -/
def selfPtr : GoVal := .ptrV .strT (some 0) (some 0)

def venvSelf : Nat → SlogVal := fun _ => .anyV selfPtr

/-- A self-referential node: heap address 0 holds a struct with a
sensitive field and a `Next` pointer field pointing back to address 0. -/
def cycleNode : GoVal :=
  .structV (.cons "Secret" "true" true .strT (.strV "x")
    (.cons "Next" "" true (.ptrT .strT) (.ptrV .strT (some 0) none) .nil))

def heapCycle : Heap := [(0, cycleNode)]

/-- A `*Nested` pointing at the heap's `nestedVal` (address 7). -/
def nestedPtr : GoVal := .ptrV nestedTy (some 7) none

/-- A struct with two map fields sharing one pointer:
`M1 map[int]*Nested{1: p}` and `M2 map[*Nested]string{p: "x"}`. -/
def c10val : GoVal :=
  .structV (.cons "M1" "" true (.mapT .intT (.ptrT nestedTy))
      (.mapV .intT (.ptrT nestedTy) (.cons (.intV 1) nestedPtr .nil))
    (.cons "M2" "" true (.mapT (.ptrT nestedTy) .strT)
      (.mapV (.ptrT nestedTy) .strT (.cons nestedPtr (.strV "x") .nil)) .nil))

/-- First redaction of `c10val`: redacting `M1`'s entry marks `p` in the
cycle tracker, then the entry is dropped on key assignability (`int`
became `int64`); `M2`'s key `p` is therefore already visited, passes
through verbatim, stays assignable and is re-inserted. -/
def c10red1 : GoVal :=
  .structV (.cons "M1" "" true (.mapT .intT (.ptrT nestedTy))
      (.mapV .intT (.ptrT nestedTy) .nil)
    (.cons "M2" "" true (.mapT (.ptrT nestedTy) .strT)
      (.mapV (.ptrT nestedTy) .strT (.cons nestedPtr (.strV "x") .nil)) .nil))

/-- Second redaction of `c10red1`: `M1` is already empty, so nothing
marks `p`; `M2`'s key is now dereferenced, redacts to a bare `Nested`
struct, fails key assignability, and the entry is dropped. -/
def c10red2 : GoVal :=
  .structV (.cons "M1" "" true (.mapT .intT (.ptrT nestedTy))
      (.mapV .intT (.ptrT nestedTy) .nil)
    (.cons "M2" "" true (.mapT (.ptrT nestedTy) .strT)
      (.mapV (.ptrT nestedTy) .strT .nil) .nil))

/-! ## Valuer-freeness and the termination measure -/

mutual

/-- No `slog.LogValuer` anywhere in the value: no `valuerV`, and no
pointer whose type implements the protocol. -/
def valuerFreeV : GoVal → Bool
  | .valuerV _ => false
  | .ptrV _ _ (some _) => false
  | .structV fs => valuerFreeF fs
  | .sliceV _ es => valuerFreeL es
  | .arrayV _ es => valuerFreeL es
  | .mapV _ _ es => valuerFreeE es
  | _ => true

def valuerFreeF : Fields → Bool
  | .nil => true
  | .cons _ _ _ _ v rest => valuerFreeV v && valuerFreeF rest

def valuerFreeL : VList → Bool
  | .nil => true
  | .cons v rest => valuerFreeV v && valuerFreeL rest

def valuerFreeE : EList → Bool
  | .nil => true
  | .cons k v rest => valuerFreeV k && valuerFreeV v && valuerFreeE rest

end

/-- Every pointer target in the heap is valuer-free. -/
def heapValuerFree (heap : Heap) : Bool :=
  heap.all fun p => valuerFreeV p.2

/-- Heap addresses not yet in the cycle tracker: the part of the
termination measure that shrinks when a reference is first visited. -/
def unvisited (heap : Heap) (vis : List Nat) : Nat :=
  ((heap.map Prod.fst).filter fun a => decide (a ∉ vis)).length

/-- Is a `slog.Value` a group? -/
def isGroupSV : SlogVal → Bool
  | .groupV _ => true
  | _ => false

/-! ## Reference/valuer-freeness and reprocessing stability (for the
idempotence analysis) -/

/-- Replace the state component of a run outcome. -/
def swapSt {α : Type} (st2 : St) : Out (α × St) → Out (α × St)
  | .ok (r, _) => .ok (r, st2)
  | .panicked => .panicked
  | .hungry => .hungry

mutual

/-- No reference and no valuer anywhere the walker recurses: no `ptrV`
and no `valuerV` in a processed position.  Unexported and sentinel-tagged
struct fields are never recursed into (skipped resp. zeroed), so their
values are unconstrained; array elements are never reached either (the
`IsNil` call panics first, see C2). -/
def pvFreeV : GoVal → Bool
  | .ptrV _ _ _ => false
  | .valuerV _ => false
  | .structV fs => pvFreeF fs
  | .sliceV _ es => pvFreeL es
  | .mapV _ _ es => pvFreeE es
  | _ => true

def pvFreeF : Fields → Bool
  | .nil => true
  | .cons _ tag ex _ v rest =>
    (if ex = true ∧ tag = "" then pvFreeV v else true) && pvFreeF rest

def pvFreeL : VList → Bool
  | .nil => true
  | .cons v rest => pvFreeV v && pvFreeL rest

def pvFreeE : EList → Bool
  | .nil => true
  | .cons k v rest => pvFreeV k && pvFreeV v && pvFreeE rest

end

/-- An attribute as `slog` hands it to a `ReplaceAttr` hook: `slog`
only calls the hook on non-group attributes (group members are rewritten
one by one by the handler), and the payload lies in the reference- and
valuer-free domain. -/
def attrOK (a : Attr) : Prop :=
  match a.val with
  | .groupV _ => False
  | .anyV x => pvFreeV x = true
  | _ => True

/-- Reprocessing stability of a result: feeding the result's dynamic
value back through `processAny` reproduces the very same `slog.Value`,
under any tracker state, leaving the state untouched. -/
def ReAny (heap : Heap) (venv : Nat → SlogVal) (r : SlogVal) : Prop :=
  ∀ st2 : St, ∃ f2, processAny heap venv f2 (anyOut r) st2 = .ok (r, st2)

/-- Reprocessing stability at the `processValue` level. -/
def ReVal (heap : Heap) (venv : Nat → SlogVal) (r : SlogVal) : Prop :=
  ∀ st2 : St, ∃ f2, processValue heap venv f2 r st2 = .ok (r, st2)

/-- A dynamic value that redacts to itself, with the stated reflected
type: the shape of every key and value `processMap` inserts into the
rebuilt mapping. -/
def Repro (heap : Heap) (venv : Nat → SlogVal) (t : GoTy) (x : GoVal) : Prop :=
  reflectTypeOf x = some t ∧
    ∃ r, anyOut r = x ∧
      ∀ st2 : St, ∃ f2, processAny heap venv f2 x st2 = .ok (r, st2)

/-- Every key and value of the entry list redacts to itself. -/
def ReproE (heap : Heap) (venv : Nat → SlogVal) (kt vt : GoTy) : EList → Prop
  | .nil => True
  | .cons k v rest =>
    Repro heap venv kt k ∧ Repro heap venv vt v ∧ ReproE heap venv kt vt rest

/-- Concatenation of map entry lists. -/
def eappend : EList → EList → EList
  | .nil, ys => ys
  | .cons k v rest, ys => .cons k v (eappend rest ys)

/-! ## Basic lemmas about `Out` -/

theorem obind_eq_ok {α β : Type} {o : Out α} {f : α → Out β} {b : β}
    (h : obind o f = .ok b) : ∃ a, o = .ok a ∧ f a = .ok b := by
  cases o with
  | ok a => exact ⟨a, rfl, h⟩
  | panicked => simp [obind] at h
  | hungry => simp [obind] at h

@[simp] theorem obind_ok {α β : Type} (a : α) (f : α → Out β) :
    obind (.ok a) f = f a := rfl

@[simp] theorem obind_panicked {α β : Type} (f : α → Out β) :
    obind (α := α) .panicked f = .panicked := rfl

@[simp] theorem obind_hungry {α β : Type} (f : α → Out β) :
    obind (α := α) .hungry f = .hungry := rfl

/-! ## One-step unfolding equations (used to control unfolding when two
fuel levels appear in one goal) -/

theorem processValue_succ (heap : Heap) (venv : Nat → SlogVal) (f : Nat)
    (v : SlogVal) (st : St) :
    processValue heap venv (f + 1) v st =
      match v with
      | .anyV x =>
        match isLogValuer x with
        | some vid => processValue heap venv f (venv vid) st
        | none => processAny heap venv f x st
      | .groupV g =>
        obind (processAttrs heap venv f (ghGet st.gh g) st) fun (as2, st1) =>
          .ok (.groupV g, { st1 with gh := ghSet st1.gh g as2 })
      | v => .ok (v, st) := rfl

theorem processAttrs_succ (heap : Heap) (venv : Nat → SlogVal) (f : Nat)
    (as : List Attr) (st : St) :
    processAttrs heap venv (f + 1) as st =
      match as with
      | [] => .ok ([], st)
      | a :: rest =>
        obind (processValue heap venv f a.val st) fun (r, st1) =>
        obind (processAttrs heap venv f rest st1) fun (rs, st2) =>
        .ok ({ a with val := r } :: rs, st2) := rfl

theorem processAny_succ (heap : Heap) (venv : Nat → SlogVal) (f : Nat)
    (x : GoVal) (st : St) :
    processAny heap venv (f + 1) x st =
      match x with
      | .nilV => .ok (.anyV .nilV, st)
      | x =>
        match isLogValuer x with
        | some vid => processValue heap venv f (venv vid) st
        | none => derefLoop heap venv f x st := rfl

theorem derefLoop_succ (heap : Heap) (venv : Nat → SlogVal) (f : Nat)
    (x : GoVal) (st : St) :
    derefLoop heap venv (f + 1) x st =
      match x with
      | .ptrV _ none _ => .ok (.anyV .nilV, st)
      | .ptrV ty (some a) vid =>
        if a ∈ st.visited then
          .ok (slogAnyValue (.ptrV ty (some a) vid), st)
        else
          let st1 : St := { st with visited := a :: st.visited }
          match vid with
          | some v => processValue heap venv f (venv v) st1
          | none => derefLoop heap venv f (heapGet heap a) st1
      | x => afterLoop heap venv f x st := rfl

theorem afterLoop_succ (heap : Heap) (venv : Nat → SlogVal) (f : Nat)
    (x : GoVal) (st : St) :
    afterLoop heap venv (f + 1) x st =
      match x with
      | .structV fs => processStruct heap venv f fs st
      | .nilSliceV t => processSliceOrArray heap venv f (.nilSliceV t) st
      | .sliceV t es => processSliceOrArray heap venv f (.sliceV t es) st
      | .arrayV t es => processSliceOrArray heap venv f (.arrayV t es) st
      | .nilMapV kt vt => processMap heap venv f (.nilMapV kt vt) st
      | .mapV kt vt es => processMap heap venv f (.mapV kt vt es) st
      | x => .ok (slogAnyValue x, st) := rfl

theorem processStruct_succ (heap : Heap) (venv : Nat → SlogVal) (f : Nat)
    (fs : Fields) (st : St) :
    processStruct heap venv (f + 1) fs st =
      obind (processFields heap venv f fs st) fun (fs2, st1) =>
      .ok (.anyV (.structV fs2), st1) := rfl

theorem processFields_succ (heap : Heap) (venv : Nat → SlogVal) (f : Nat)
    (fs : Fields) (st : St) :
    processFields heap venv (f + 1) fs st =
      match fs with
      | .nil => .ok (.nil, st)
      | .cons n tag ex ty v rest =>
        if ex = false then
          obind (processFields heap venv f rest st) fun (rs, st1) =>
          .ok (.cons n tag ex ty v rs, st1)
        else if tag ≠ "" then
          obind (processFields heap venv f rest st) fun (rs, st1) =>
          .ok (.cons n tag ex ty (zeroOf ty) rs, st1)
        else
          obind (processAny heap venv f v st) fun (r, st1) =>
          match reflectTypeOf (anyOut r) with
          | none => .panicked
          | some t =>
            obind (processFields heap venv f rest st1) fun (rs, st2) =>
            .ok (.cons n tag ex ty (if t = ty then anyOut r else v) rs, st2) := rfl

theorem processSliceOrArray_succ (heap : Heap) (venv : Nat → SlogVal) (f : Nat)
    (x : GoVal) (st : St) :
    processSliceOrArray heap venv (f + 1) x st =
      match x with
      | .arrayV _ _ => .panicked
      | .nilSliceV _ => .ok (.anyV .nilV, st)
      | .sliceV t es =>
        obind (processElems heap venv f t es st) fun (es2, st1) =>
        .ok (.anyV (.sliceV t es2), st1)
      | _ => .panicked := rfl

theorem processElems_succ (heap : Heap) (venv : Nat → SlogVal) (f : Nat)
    (ty : GoTy) (es : VList) (st : St) :
    processElems heap venv (f + 1) ty es st =
      match es with
      | .nil => .ok (.nil, st)
      | .cons e rest =>
        obind (processAny heap venv f e st) fun (r, st1) =>
        match reflectTypeOf (anyOut r) with
        | none => .panicked
        | some t =>
          obind (processElems heap venv f ty rest st1) fun (rs, st2) =>
          .ok (.cons (if t = ty then anyOut r else e) rs, st2) := rfl

theorem processMap_succ (heap : Heap) (venv : Nat → SlogVal) (f : Nat)
    (x : GoVal) (st : St) :
    processMap heap venv (f + 1) x st =
      match x with
      | .nilMapV _ _ => .ok (.anyV .nilV, st)
      | .mapV kt vt es =>
        obind (processEntries heap venv f kt vt es .nil st) fun (es2, st1) =>
        .ok (.anyV (.mapV kt vt es2), st1)
      | _ => .panicked := rfl

theorem processEntries_succ (heap : Heap) (venv : Nat → SlogVal) (f : Nat)
    (kt vt : GoTy) (es acc : EList) (st : St) :
    processEntries heap venv (f + 1) kt vt es acc st =
      match es with
      | .nil => .ok (acc, st)
      | .cons k v rest =>
        obind (processAny heap venv f k st) fun (rk, st1) =>
        obind (processAny heap venv f v st1) fun (rv, st2) =>
        match reflectTypeOf (anyOut rk) with
        | none => .panicked
        | some tk =>
          if tk = kt then
            match reflectTypeOf (anyOut rv) with
            | none => .panicked
            | some tv =>
              processEntries heap venv f kt vt rest
                (if tv = vt then upsert acc (anyOut rk) (anyOut rv) else acc) st2
          else
            processEntries heap venv f kt vt rest acc st2 := rfl

/-! ## Fuel monotonicity: a non-starved run is stable under more fuel -/

theorem obind_mono {α β : Type} {o o' : Out α} {k k' : α → Out β}
    (h : obind o k ≠ .hungry)
    (ho : o ≠ .hungry → o' = o)
    (hk : ∀ a, o = .ok a → k a ≠ .hungry → k' a = k a) :
    obind o' k' = obind o k := by
  cases o with
  | hungry => simp at h
  | panicked => rw [ho (by simp)]; rfl
  | ok a =>
    rw [ho (by simp)]
    simp only [obind_ok]
    exact hk a rfl (by simpa using h)

theorem monoStep (heap : Heap) (venv : Nat → SlogVal) :
    ∀ f : Nat,
      (∀ v st, processValue heap venv f v st ≠ .hungry →
        processValue heap venv (f + 1) v st = processValue heap venv f v st) ∧
      (∀ as st, processAttrs heap venv f as st ≠ .hungry →
        processAttrs heap venv (f + 1) as st = processAttrs heap venv f as st) ∧
      (∀ x st, processAny heap venv f x st ≠ .hungry →
        processAny heap venv (f + 1) x st = processAny heap venv f x st) ∧
      (∀ x st, derefLoop heap venv f x st ≠ .hungry →
        derefLoop heap venv (f + 1) x st = derefLoop heap venv f x st) ∧
      (∀ x st, afterLoop heap venv f x st ≠ .hungry →
        afterLoop heap venv (f + 1) x st = afterLoop heap venv f x st) ∧
      (∀ fs st, processStruct heap venv f fs st ≠ .hungry →
        processStruct heap venv (f + 1) fs st = processStruct heap venv f fs st) ∧
      (∀ fs st, processFields heap venv f fs st ≠ .hungry →
        processFields heap venv (f + 1) fs st = processFields heap venv f fs st) ∧
      (∀ x st, processSliceOrArray heap venv f x st ≠ .hungry →
        processSliceOrArray heap venv (f + 1) x st =
          processSliceOrArray heap venv f x st) ∧
      (∀ ty es st, processElems heap venv f ty es st ≠ .hungry →
        processElems heap venv (f + 1) ty es st =
          processElems heap venv f ty es st) ∧
      (∀ x st, processMap heap venv f x st ≠ .hungry →
        processMap heap venv (f + 1) x st = processMap heap venv f x st) ∧
      (∀ kt vt es acc st, processEntries heap venv f kt vt es acc st ≠ .hungry →
        processEntries heap venv (f + 1) kt vt es acc st =
          processEntries heap venv f kt vt es acc st) := by
  intro f
  induction f with
  | zero =>
    refine ⟨?_, ?_, ?_, ?_, ?_, ?_, ?_, ?_, ?_, ?_, ?_⟩ <;>
      intros <;> exact absurd rfl (by assumption)
  | succ f ih =>
    obtain ⟨ihV, ihAt, ihA, ihD, ihAf, ihS, ihF, ihSoA, ihE, ihM, ihEnt⟩ := ih
    refine ⟨?_, ?_, ?_, ?_, ?_, ?_, ?_, ?_, ?_, ?_, ?_⟩
    -- processValue
    · intro v st h
      rw [processValue_succ heap venv f v st] at h
      conv_lhs => rw [processValue_succ heap venv (f + 1) v st]
      conv_rhs => rw [processValue_succ heap venv f v st]
      cases v with
      | anyV x =>
        cases hvid : isLogValuer x with
        | some vid => simp only [hvid] at h ⊢; exact ihV _ _ h
        | none => simp only [hvid] at h ⊢; exact ihA _ _ h
      | groupV g =>
        simp only at h ⊢
        exact obind_mono h (fun hne => ihAt _ _ hne) (fun a _ _ => rfl)
      | strVal s => rfl
      | int64Val n => rfl
      | boolVal b => rfl
    -- processAttrs
    · intro as st h
      rw [processAttrs_succ heap venv f as st] at h
      conv_lhs => rw [processAttrs_succ heap venv (f + 1) as st]
      conv_rhs => rw [processAttrs_succ heap venv f as st]
      cases as with
      | nil => rfl
      | cons a rest =>
        simp only at h ⊢
        refine obind_mono h (fun hne => ihV _ _ hne) ?_
        intro p hp hne
        obtain ⟨r, st1⟩ := p
        exact obind_mono hne (fun hne2 => ihAt _ _ hne2) (fun a _ _ => rfl)
    -- processAny
    · intro x st h
      rw [processAny_succ heap venv f x st] at h
      conv_lhs => rw [processAny_succ heap venv (f + 1) x st]
      conv_rhs => rw [processAny_succ heap venv f x st]
      cases x with
      | nilV => rfl
      | valuerV vid => simp only [isLogValuer] at h ⊢; exact ihV _ _ h
      | ptrV t a vid =>
        cases vid with
        | some w => simp only [isLogValuer] at h ⊢; exact ihV _ _ h
        | none => simp only [isLogValuer] at h ⊢; exact ihD _ _ h
      | intV n => simp only [isLogValuer] at h ⊢; exact ihD _ _ h
      | int64V n => simp only [isLogValuer] at h ⊢; exact ihD _ _ h
      | strV s => simp only [isLogValuer] at h ⊢; exact ihD _ _ h
      | boolV b => simp only [isLogValuer] at h ⊢; exact ihD _ _ h
      | structV fs => simp only [isLogValuer] at h ⊢; exact ihD _ _ h
      | nilSliceV t => simp only [isLogValuer] at h ⊢; exact ihD _ _ h
      | sliceV t es => simp only [isLogValuer] at h ⊢; exact ihD _ _ h
      | arrayV t es => simp only [isLogValuer] at h ⊢; exact ihD _ _ h
      | nilMapV kt vt => simp only [isLogValuer] at h ⊢; exact ihD _ _ h
      | mapV kt vt es => simp only [isLogValuer] at h ⊢; exact ihD _ _ h
      | attrsOf g => simp only [isLogValuer] at h ⊢; exact ihD _ _ h
    -- derefLoop
    · intro x st h
      rw [derefLoop_succ heap venv f x st] at h
      conv_lhs => rw [derefLoop_succ heap venv (f + 1) x st]
      conv_rhs => rw [derefLoop_succ heap venv f x st]
      cases x with
      | ptrV t addr vid =>
        cases addr with
        | none => rfl
        | some a =>
          by_cases hmem : a ∈ st.visited
          · simp only [hmem, if_true, reduceIte]
          · simp only [hmem, if_false, reduceIte] at h ⊢
            cases vid with
            | some w => exact ihV _ _ h
            | none => exact ihD _ _ h
      | nilV => simp only at h ⊢; exact ihAf _ _ h
      | intV n => simp only at h ⊢; exact ihAf _ _ h
      | int64V n => simp only at h ⊢; exact ihAf _ _ h
      | strV s => simp only at h ⊢; exact ihAf _ _ h
      | boolV b => simp only at h ⊢; exact ihAf _ _ h
      | structV fs => simp only at h ⊢; exact ihAf _ _ h
      | nilSliceV t => simp only at h ⊢; exact ihAf _ _ h
      | sliceV t es => simp only at h ⊢; exact ihAf _ _ h
      | arrayV t es => simp only at h ⊢; exact ihAf _ _ h
      | nilMapV kt vt => simp only at h ⊢; exact ihAf _ _ h
      | mapV kt vt es => simp only at h ⊢; exact ihAf _ _ h
      | valuerV vid => simp only at h ⊢; exact ihAf _ _ h
      | attrsOf g => simp only at h ⊢; exact ihAf _ _ h
    -- afterLoop
    · intro x st h
      rw [afterLoop_succ heap venv f x st] at h
      conv_lhs => rw [afterLoop_succ heap venv (f + 1) x st]
      conv_rhs => rw [afterLoop_succ heap venv f x st]
      cases x with
      | structV fs => exact ihS _ _ h
      | nilSliceV t => exact ihSoA _ _ h
      | sliceV t es => exact ihSoA _ _ h
      | arrayV t es => exact ihSoA _ _ h
      | nilMapV kt vt => exact ihM _ _ h
      | mapV kt vt es => exact ihM _ _ h
      | nilV => rfl
      | intV n => rfl
      | int64V n => rfl
      | strV s => rfl
      | boolV b => rfl
      | ptrV t a vid => rfl
      | valuerV vid => rfl
      | attrsOf g => rfl
    -- processStruct
    · intro fs st h
      rw [processStruct_succ heap venv f fs st] at h
      conv_lhs => rw [processStruct_succ heap venv (f + 1) fs st]
      conv_rhs => rw [processStruct_succ heap venv f fs st]
      exact obind_mono h (fun hne => ihF _ _ hne) (fun a _ _ => rfl)
    -- processFields
    · intro fs st h
      rw [processFields_succ heap venv f fs st] at h
      conv_lhs => rw [processFields_succ heap venv (f + 1) fs st]
      conv_rhs => rw [processFields_succ heap venv f fs st]
      cases fs with
      | nil => rfl
      | cons n tag ex ty v rest =>
        cases ex with
        | false =>
          simp only [reduceIte] at h ⊢
          exact obind_mono h (fun hne => ihF _ _ hne) (fun a _ _ => rfl)
        | true =>
          by_cases htag : tag = ""
          · subst htag
            simp only [reduceIte, ne_eq, not_true_eq_false, if_false] at h ⊢
            refine obind_mono h (fun hne => ihA _ _ hne) ?_
            intro p hp hne
            obtain ⟨r, st1⟩ := p
            cases hrt : reflectTypeOf (anyOut r) with
            | none => simp only [hrt]
            | some t =>
              simp only [hrt] at hne ⊢
              exact obind_mono hne (fun hne2 => ihF _ _ hne2) (fun a _ _ => rfl)
          · simp only [htag, reduceIte, ne_eq, not_false_eq_true, if_true]
              at h ⊢
            exact obind_mono h (fun hne => ihF _ _ hne) (fun a _ _ => rfl)
    -- processSliceOrArray
    · intro x st h
      rw [processSliceOrArray_succ heap venv f x st] at h
      conv_lhs => rw [processSliceOrArray_succ heap venv (f + 1) x st]
      conv_rhs => rw [processSliceOrArray_succ heap venv f x st]
      cases x with
      | sliceV t es =>
        simp only at h ⊢
        exact obind_mono h (fun hne => ihE _ _ _ hne) (fun a _ _ => rfl)
      | nilSliceV t => rfl
      | arrayV t es => rfl
      | nilV => rfl
      | intV n => rfl
      | int64V n => rfl
      | strV s => rfl
      | boolV b => rfl
      | structV fs => rfl
      | nilMapV kt vt => rfl
      | mapV kt vt es => rfl
      | ptrV t a vid => rfl
      | valuerV vid => rfl
      | attrsOf g => rfl
    -- processElems
    · intro ty es st h
      rw [processElems_succ heap venv f ty es st] at h
      conv_lhs => rw [processElems_succ heap venv (f + 1) ty es st]
      conv_rhs => rw [processElems_succ heap venv f ty es st]
      cases es with
      | nil => rfl
      | cons e rest =>
        simp only at h ⊢
        refine obind_mono h (fun hne => ihA _ _ hne) ?_
        intro p hp hne
        obtain ⟨r, st1⟩ := p
        cases hrt : reflectTypeOf (anyOut r) with
        | none => simp only [hrt]
        | some t =>
          simp only [hrt] at hne ⊢
          exact obind_mono hne (fun hne2 => ihE _ _ _ hne2) (fun a _ _ => rfl)
    -- processMap
    · intro x st h
      rw [processMap_succ heap venv f x st] at h
      conv_lhs => rw [processMap_succ heap venv (f + 1) x st]
      conv_rhs => rw [processMap_succ heap venv f x st]
      cases x with
      | mapV kt vt es =>
        simp only at h ⊢
        exact obind_mono h (fun hne => ihEnt _ _ _ _ _ hne) (fun a _ _ => rfl)
      | nilMapV kt vt => rfl
      | nilV => rfl
      | intV n => rfl
      | int64V n => rfl
      | strV s => rfl
      | boolV b => rfl
      | structV fs => rfl
      | nilSliceV t => rfl
      | sliceV t es => rfl
      | arrayV t es => rfl
      | ptrV t a vid => rfl
      | valuerV vid => rfl
      | attrsOf g => rfl
    -- processEntries
    · intro kt vt es acc st h
      rw [processEntries_succ heap venv f kt vt es acc st] at h
      conv_lhs => rw [processEntries_succ heap venv (f + 1) kt vt es acc st]
      conv_rhs => rw [processEntries_succ heap venv f kt vt es acc st]
      cases es with
      | nil => rfl
      | cons k v rest =>
        simp only at h ⊢
        refine obind_mono h (fun hne => ihA _ _ hne) ?_
        intro p hp hne
        obtain ⟨rk, st1⟩ := p
        refine obind_mono hne (fun hne2 => ihA _ _ hne2) ?_
        intro q hq hne2
        obtain ⟨rv, st2⟩ := q
        cases hrt : reflectTypeOf (anyOut rk) with
        | none => simp only [hrt]
        | some tk =>
          simp only [hrt] at hne2 ⊢
          by_cases htk : tk = kt
          · simp only [if_pos htk] at hne2 ⊢
            cases hrt2 : reflectTypeOf (anyOut rv) with
            | none => simp only [hrt2]
            | some tv =>
              simp only [hrt2] at hne2 ⊢
              exact ihEnt _ _ _ _ _ hne2
          · simp only [if_neg htk] at hne2 ⊢
            exact ihEnt _ _ _ _ _ hne2

theorem processValue_mono_le (heap : Heap) (venv : Nat → SlogVal) {f f' : Nat}
    (hle : f ≤ f') {v : SlogVal} {st : St}
    (h : processValue heap venv f v st ≠ .hungry) :
    processValue heap venv f' v st = processValue heap venv f v st := by
  obtain ⟨d, rfl⟩ := Nat.exists_eq_add_of_le hle
  induction d with
  | zero => rfl
  | succ d ih =>
    have he : f + (d + 1) = (f + d) + 1 := by omega
    rw [he, (monoStep heap venv (f + d)).1 v st (by rw [ih (by omega)]; exact h), ih (by omega)]

theorem processAttrs_mono_le (heap : Heap) (venv : Nat → SlogVal) {f f' : Nat}
    (hle : f ≤ f') {as : List Attr} {st : St}
    (h : processAttrs heap venv f as st ≠ .hungry) :
    processAttrs heap venv f' as st = processAttrs heap venv f as st := by
  obtain ⟨d, rfl⟩ := Nat.exists_eq_add_of_le hle
  induction d with
  | zero => rfl
  | succ d ih =>
    have he : f + (d + 1) = (f + d) + 1 := by omega
    rw [he, (monoStep heap venv (f + d)).2.1 as st (by rw [ih (by omega)]; exact h), ih (by omega)]

theorem processAny_mono_le (heap : Heap) (venv : Nat → SlogVal) {f f' : Nat}
    (hle : f ≤ f') {x : GoVal} {st : St}
    (h : processAny heap venv f x st ≠ .hungry) :
    processAny heap venv f' x st = processAny heap venv f x st := by
  obtain ⟨d, rfl⟩ := Nat.exists_eq_add_of_le hle
  induction d with
  | zero => rfl
  | succ d ih =>
    have he : f + (d + 1) = (f + d) + 1 := by omega
    rw [he, (monoStep heap venv (f + d)).2.2.1 x st (by rw [ih (by omega)]; exact h), ih (by omega)]

theorem derefLoop_mono_le (heap : Heap) (venv : Nat → SlogVal) {f f' : Nat}
    (hle : f ≤ f') {x : GoVal} {st : St}
    (h : derefLoop heap venv f x st ≠ .hungry) :
    derefLoop heap venv f' x st = derefLoop heap venv f x st := by
  obtain ⟨d, rfl⟩ := Nat.exists_eq_add_of_le hle
  induction d with
  | zero => rfl
  | succ d ih =>
    have he : f + (d + 1) = (f + d) + 1 := by omega
    rw [he, (monoStep heap venv (f + d)).2.2.2.1 x st (by rw [ih (by omega)]; exact h), ih (by omega)]

theorem processFields_mono_le (heap : Heap) (venv : Nat → SlogVal) {f f' : Nat}
    (hle : f ≤ f') {fs : Fields} {st : St}
    (h : processFields heap venv f fs st ≠ .hungry) :
    processFields heap venv f' fs st = processFields heap venv f fs st := by
  obtain ⟨d, rfl⟩ := Nat.exists_eq_add_of_le hle
  induction d with
  | zero => rfl
  | succ d ih =>
    have he : f + (d + 1) = (f + d) + 1 := by omega
    rw [he, (monoStep heap venv (f + d)).2.2.2.2.2.2.1 fs st
      (by rw [ih (by omega)]; exact h), ih (by omega)]

theorem processElems_mono_le (heap : Heap) (venv : Nat → SlogVal) {f f' : Nat}
    (hle : f ≤ f') {ty : GoTy} {es : VList} {st : St}
    (h : processElems heap venv f ty es st ≠ .hungry) :
    processElems heap venv f' ty es st = processElems heap venv f ty es st := by
  obtain ⟨d, rfl⟩ := Nat.exists_eq_add_of_le hle
  induction d with
  | zero => rfl
  | succ d ih =>
    have he : f + (d + 1) = (f + d) + 1 := by omega
    rw [he, (monoStep heap venv (f + d)).2.2.2.2.2.2.2.2.1 ty es st
      (by rw [ih (by omega)]; exact h), ih (by omega)]

theorem processEntries_mono_le (heap : Heap) (venv : Nat → SlogVal) {f f' : Nat}
    (hle : f ≤ f') {kt vt : GoTy} {es acc : EList} {st : St}
    (h : processEntries heap venv f kt vt es acc st ≠ .hungry) :
    processEntries heap venv f' kt vt es acc st =
      processEntries heap venv f kt vt es acc st := by
  obtain ⟨d, rfl⟩ := Nat.exists_eq_add_of_le hle
  induction d with
  | zero => rfl
  | succ d ih =>
    have he : f + (d + 1) = (f + d) + 1 := by omega
    rw [he, (monoStep heap venv (f + d)).2.2.2.2.2.2.2.2.2.2 kt vt es acc st
      (by rw [ih (by omega)]; exact h), ih (by omega)]

/-! ## Measure lemmas for the termination argument -/

theorem filter_length_mono {l : List Nat} {p q : Nat → Bool}
    (himp : ∀ x, p x = true → q x = true) :
    (l.filter p).length ≤ (l.filter q).length :=
  (List.monotone_filter_right l fun a ha => himp a ha).length_le

theorem filter_length_lt {l : List Nat} {p q : Nat → Bool}
    (himp : ∀ x, p x = true → q x = true) {a : Nat} (ha : a ∈ l)
    (hpa : p a = false) (hqa : q a = true) :
    (l.filter p).length < (l.filter q).length := by
  have hsub : List.Sublist (l.filter p) (l.filter q) :=
    List.monotone_filter_right l fun x hx => himp x hx
  cases Nat.eq_or_lt_of_le hsub.length_le with
  | inr hlt => exact hlt
  | inl heq =>
    have heql : l.filter p = l.filter q := hsub.eq_of_length heq
    have hmem : a ∈ l.filter p := heql ▸ List.mem_filter.2 ⟨ha, hqa⟩
    rw [List.mem_filter, hpa] at hmem
    exact absurd hmem.2 (by simp)

theorem unvisited_anti (heap : Heap) {v1 v2 : List Nat} (h : v1 ⊆ v2) :
    unvisited heap v2 ≤ unvisited heap v1 := by
  apply filter_length_mono
  intro x hx
  simp only [decide_eq_true_eq] at hx ⊢
  exact fun hmem => hx (h hmem)

theorem unvisited_mark_lt {heap : Heap} {vis : List Nat} {a : Nat}
    (hdom : a ∈ heap.map Prod.fst) (hnot : a ∉ vis) :
    unvisited heap (a :: vis) < unvisited heap vis := by
  apply filter_length_lt (a := a) _ hdom
  · simp
  · simp [hnot]
  · intro x hx
    simp only [decide_eq_true_eq, List.mem_cons, not_or] at hx ⊢
    exact hx.2

theorem heapGet_of_not_mem {heap : Heap} {a : Nat}
    (h : a ∉ heap.map Prod.fst) : heapGet heap a = .nilV := by
  induction heap with
  | nil => rfl
  | cons p rest ih =>
    obtain ⟨b, v⟩ := p
    simp only [List.map_cons, List.mem_cons, not_or] at h
    have hb : (a == b) = false := beq_eq_false_iff_ne.2 h.1
    simp only [heapGet, List.lookup, hb]
    exact ih h.2

theorem heapGet_valuerFree {heap : Heap} (h : heapValuerFree heap = true)
    (a : Nat) : valuerFreeV (heapGet heap a) = true := by
  induction heap with
  | nil => rfl
  | cons p rest ih =>
    obtain ⟨b, v⟩ := p
    simp only [heapValuerFree, List.all_cons, Bool.and_eq_true] at h
    by_cases hab : a = b
    · have hb : (a == b) = true := beq_iff_eq.2 hab
      simp only [heapGet, List.lookup, hb]
      exact h.1
    · have hb : (a == b) = false := beq_eq_false_iff_ne.2 hab
      simp only [heapGet, List.lookup, hb]
      exact ih (by simpa [heapValuerFree] using h.2)

/-! ## The cycle tracker only grows -/

theorem visitedMono (heap : Heap) (venv : Nat → SlogVal) :
    ∀ f : Nat,
      (∀ v st r st2, processValue heap venv f v st = .ok (r, st2) →
        st.visited ⊆ st2.visited) ∧
      (∀ as st rs st2, processAttrs heap venv f as st = .ok (rs, st2) →
        st.visited ⊆ st2.visited) ∧
      (∀ x st r st2, processAny heap venv f x st = .ok (r, st2) →
        st.visited ⊆ st2.visited) ∧
      (∀ x st r st2, derefLoop heap venv f x st = .ok (r, st2) →
        st.visited ⊆ st2.visited) ∧
      (∀ x st r st2, afterLoop heap venv f x st = .ok (r, st2) →
        st.visited ⊆ st2.visited) ∧
      (∀ fs st r st2, processStruct heap venv f fs st = .ok (r, st2) →
        st.visited ⊆ st2.visited) ∧
      (∀ fs st rs st2, processFields heap venv f fs st = .ok (rs, st2) →
        st.visited ⊆ st2.visited) ∧
      (∀ x st r st2, processSliceOrArray heap venv f x st = .ok (r, st2) →
        st.visited ⊆ st2.visited) ∧
      (∀ ty es st rs st2, processElems heap venv f ty es st = .ok (rs, st2) →
        st.visited ⊆ st2.visited) ∧
      (∀ x st r st2, processMap heap venv f x st = .ok (r, st2) →
        st.visited ⊆ st2.visited) ∧
      (∀ kt vt es acc st rs st2,
        processEntries heap venv f kt vt es acc st = .ok (rs, st2) →
        st.visited ⊆ st2.visited) := by
  intro f
  induction f with
  | zero =>
    exact ⟨fun v st r st2 h => absurd h (by simp [processValue]),
      fun as st rs st2 h => absurd h (by simp [processAttrs]),
      fun x st r st2 h => absurd h (by simp [processAny]),
      fun x st r st2 h => absurd h (by simp [derefLoop]),
      fun x st r st2 h => absurd h (by simp [afterLoop]),
      fun fs st r st2 h => absurd h (by simp [processStruct]),
      fun fs st rs st2 h => absurd h (by simp [processFields]),
      fun x st r st2 h => absurd h (by simp [processSliceOrArray]),
      fun ty es st rs st2 h => absurd h (by simp [processElems]),
      fun x st r st2 h => absurd h (by simp [processMap]),
      fun kt vt es acc st rs st2 h => absurd h (by simp [processEntries])⟩
  | succ f ih =>
    obtain ⟨ihV, ihAt, ihA, ihD, ihAf, ihS, ihF, ihSoA, ihE, ihM, ihEnt⟩ := ih
    refine ⟨?_, ?_, ?_, ?_, ?_, ?_, ?_, ?_, ?_, ?_, ?_⟩
    -- processValue
    · intro v st r st2 h
      rw [processValue_succ heap venv f v st] at h
      cases v with
      | anyV x =>
        cases hvid : isLogValuer x with
        | some vid => simp only [hvid] at h; exact ihV _ _ _ _ h
        | none => simp only [hvid] at h; exact ihA _ _ _ _ h
      | groupV g =>
        simp only at h
        obtain ⟨⟨as2, st1⟩, h1, h2⟩ := obind_eq_ok h
        simp only [Out.ok.injEq, Prod.mk.injEq] at h2
        obtain ⟨-, hst⟩ := h2
        have hsub := ihAt _ _ _ _ h1
        rw [← hst]
        exact hsub
      | strVal s =>
        simp only [Out.ok.injEq, Prod.mk.injEq] at h
        obtain ⟨-, rfl⟩ := h
        exact fun a ha => ha
      | int64Val n =>
        simp only [Out.ok.injEq, Prod.mk.injEq] at h
        obtain ⟨-, rfl⟩ := h
        exact fun a ha => ha
      | boolVal b =>
        simp only [Out.ok.injEq, Prod.mk.injEq] at h
        obtain ⟨-, rfl⟩ := h
        exact fun a ha => ha
    -- processAttrs
    · intro as st rs st2 h
      rw [processAttrs_succ heap venv f as st] at h
      cases as with
      | nil =>
        simp only [Out.ok.injEq, Prod.mk.injEq] at h
        obtain ⟨-, rfl⟩ := h
        exact fun a ha => ha
      | cons a rest =>
        simp only at h
        obtain ⟨⟨r1, st1⟩, h1, h2⟩ := obind_eq_ok h
        obtain ⟨⟨rs1, st3⟩, h3, h4⟩ := obind_eq_ok h2
        simp only [Out.ok.injEq, Prod.mk.injEq] at h4
        obtain ⟨-, rfl⟩ := h4
        exact (ihV _ _ _ _ h1).trans (ihAt _ _ _ _ h3)
    -- processAny
    · intro x st r st2 h
      rw [processAny_succ heap venv f x st] at h
      cases x with
      | nilV =>
        simp only [Out.ok.injEq, Prod.mk.injEq] at h
        obtain ⟨-, rfl⟩ := h
        exact fun a ha => ha
      | valuerV vid => simp only [isLogValuer] at h; exact ihV _ _ _ _ h
      | ptrV t a vid =>
        cases vid with
        | some w => simp only [isLogValuer] at h; exact ihV _ _ _ _ h
        | none => simp only [isLogValuer] at h; exact ihD _ _ _ _ h
      | intV n => simp only [isLogValuer] at h; exact ihD _ _ _ _ h
      | int64V n => simp only [isLogValuer] at h; exact ihD _ _ _ _ h
      | strV s => simp only [isLogValuer] at h; exact ihD _ _ _ _ h
      | boolV b => simp only [isLogValuer] at h; exact ihD _ _ _ _ h
      | structV fs => simp only [isLogValuer] at h; exact ihD _ _ _ _ h
      | nilSliceV t => simp only [isLogValuer] at h; exact ihD _ _ _ _ h
      | sliceV t es => simp only [isLogValuer] at h; exact ihD _ _ _ _ h
      | arrayV t es => simp only [isLogValuer] at h; exact ihD _ _ _ _ h
      | nilMapV kt vt => simp only [isLogValuer] at h; exact ihD _ _ _ _ h
      | mapV kt vt es => simp only [isLogValuer] at h; exact ihD _ _ _ _ h
      | attrsOf g => simp only [isLogValuer] at h; exact ihD _ _ _ _ h
    -- derefLoop
    · intro x st r st2 h
      rw [derefLoop_succ heap venv f x st] at h
      cases x with
      | ptrV t addr vid =>
        cases addr with
        | none =>
          simp only [Out.ok.injEq, Prod.mk.injEq] at h
          obtain ⟨-, rfl⟩ := h
          exact fun a ha => ha
        | some a =>
          by_cases hmem : a ∈ st.visited
          · simp only [hmem, if_true, reduceIte, Out.ok.injEq,
              Prod.mk.injEq] at h
            obtain ⟨-, rfl⟩ := h
            exact fun a ha => ha
          · simp only [hmem, if_false, reduceIte] at h
            cases vid with
            | some w =>
              exact (List.subset_cons_self a st.visited).trans (ihV _ _ _ _ h)
            | none =>
              exact (List.subset_cons_self a st.visited).trans (ihD _ _ _ _ h)
      | nilV => simp only at h; exact ihAf _ _ _ _ h
      | intV n => simp only at h; exact ihAf _ _ _ _ h
      | int64V n => simp only at h; exact ihAf _ _ _ _ h
      | strV s => simp only at h; exact ihAf _ _ _ _ h
      | boolV b => simp only at h; exact ihAf _ _ _ _ h
      | structV fs => simp only at h; exact ihAf _ _ _ _ h
      | nilSliceV t => simp only at h; exact ihAf _ _ _ _ h
      | sliceV t es => simp only at h; exact ihAf _ _ _ _ h
      | arrayV t es => simp only at h; exact ihAf _ _ _ _ h
      | nilMapV kt vt => simp only at h; exact ihAf _ _ _ _ h
      | mapV kt vt es => simp only at h; exact ihAf _ _ _ _ h
      | valuerV vid => simp only at h; exact ihAf _ _ _ _ h
      | attrsOf g => simp only at h; exact ihAf _ _ _ _ h
    -- afterLoop
    · intro x st r st2 h
      rw [afterLoop_succ heap venv f x st] at h
      cases x with
      | structV fs => exact ihS _ _ _ _ h
      | nilSliceV t => exact ihSoA _ _ _ _ h
      | sliceV t es => exact ihSoA _ _ _ _ h
      | arrayV t es => exact ihSoA _ _ _ _ h
      | nilMapV kt vt => exact ihM _ _ _ _ h
      | mapV kt vt es => exact ihM _ _ _ _ h
      | nilV =>
        simp only [Out.ok.injEq, Prod.mk.injEq] at h
        obtain ⟨-, rfl⟩ := h
        exact fun a ha => ha
      | intV n =>
        simp only [Out.ok.injEq, Prod.mk.injEq] at h
        obtain ⟨-, rfl⟩ := h
        exact fun a ha => ha
      | int64V n =>
        simp only [Out.ok.injEq, Prod.mk.injEq] at h
        obtain ⟨-, rfl⟩ := h
        exact fun a ha => ha
      | strV s =>
        simp only [Out.ok.injEq, Prod.mk.injEq] at h
        obtain ⟨-, rfl⟩ := h
        exact fun a ha => ha
      | boolV b =>
        simp only [Out.ok.injEq, Prod.mk.injEq] at h
        obtain ⟨-, rfl⟩ := h
        exact fun a ha => ha
      | ptrV t a vid =>
        simp only [Out.ok.injEq, Prod.mk.injEq] at h
        obtain ⟨-, rfl⟩ := h
        exact fun a ha => ha
      | valuerV vid =>
        simp only [Out.ok.injEq, Prod.mk.injEq] at h
        obtain ⟨-, rfl⟩ := h
        exact fun a ha => ha
      | attrsOf g =>
        simp only [Out.ok.injEq, Prod.mk.injEq] at h
        obtain ⟨-, rfl⟩ := h
        exact fun a ha => ha
    -- processStruct
    · intro fs st r st2 h
      rw [processStruct_succ heap venv f fs st] at h
      obtain ⟨⟨fs2, st1⟩, h1, h2⟩ := obind_eq_ok h
      simp only [Out.ok.injEq, Prod.mk.injEq] at h2
      obtain ⟨-, rfl⟩ := h2
      exact ihF _ _ _ _ h1
    -- processFields
    · intro fs st rs st2 h
      rw [processFields_succ heap venv f fs st] at h
      cases fs with
      | nil =>
        simp only [Out.ok.injEq, Prod.mk.injEq] at h
        obtain ⟨-, rfl⟩ := h
        exact fun a ha => ha
      | cons n tag ex ty v rest =>
        cases ex with
        | false =>
          simp only [reduceIte] at h
          obtain ⟨⟨rs1, st1⟩, h1, h2⟩ := obind_eq_ok h
          simp only [Out.ok.injEq, Prod.mk.injEq] at h2
          obtain ⟨-, rfl⟩ := h2
          exact ihF _ _ _ _ h1
        | true =>
          by_cases htag : tag = ""
          · subst htag
            simp only [reduceIte, ne_eq, not_true_eq_false, if_false] at h
            obtain ⟨⟨r1, st1⟩, h1, h2⟩ := obind_eq_ok h
            cases hrt : reflectTypeOf (anyOut r1) with
            | none => rw [hrt] at h2; cases h2
            | some t =>
              rw [hrt] at h2
              obtain ⟨⟨rs1, st3⟩, h3, h4⟩ := obind_eq_ok h2
              simp only [Out.ok.injEq, Prod.mk.injEq] at h4
              obtain ⟨-, rfl⟩ := h4
              exact (ihA _ _ _ _ h1).trans (ihF _ _ _ _ h3)
          · simp only [htag, reduceIte, ne_eq, not_false_eq_true, if_true] at h
            obtain ⟨⟨rs1, st1⟩, h1, h2⟩ := obind_eq_ok h
            simp only [Out.ok.injEq, Prod.mk.injEq] at h2
            obtain ⟨-, rfl⟩ := h2
            exact ihF _ _ _ _ h1
    -- processSliceOrArray
    · intro x st r st2 h
      rw [processSliceOrArray_succ heap venv f x st] at h
      cases x with
      | sliceV t es =>
        simp only at h
        obtain ⟨⟨es2, st1⟩, h1, h2⟩ := obind_eq_ok h
        simp only [Out.ok.injEq, Prod.mk.injEq] at h2
        obtain ⟨-, rfl⟩ := h2
        exact ihE _ _ _ _ _ h1
      | nilSliceV t =>
        simp only [Out.ok.injEq, Prod.mk.injEq] at h
        obtain ⟨-, rfl⟩ := h
        exact fun a ha => ha
      | arrayV t es => cases h
      | nilV => cases h
      | intV n => cases h
      | int64V n => cases h
      | strV s => cases h
      | boolV b => cases h
      | structV fs => cases h
      | nilMapV kt vt => cases h
      | mapV kt vt es => cases h
      | ptrV t a vid => cases h
      | valuerV vid => cases h
      | attrsOf g => cases h
    -- processElems
    · intro ty es st rs st2 h
      rw [processElems_succ heap venv f ty es st] at h
      cases es with
      | nil =>
        simp only [Out.ok.injEq, Prod.mk.injEq] at h
        obtain ⟨-, rfl⟩ := h
        exact fun a ha => ha
      | cons e rest =>
        simp only at h
        obtain ⟨⟨r1, st1⟩, h1, h2⟩ := obind_eq_ok h
        cases hrt : reflectTypeOf (anyOut r1) with
        | none => rw [hrt] at h2; cases h2
        | some t =>
          rw [hrt] at h2
          obtain ⟨⟨rs1, st3⟩, h3, h4⟩ := obind_eq_ok h2
          simp only [Out.ok.injEq, Prod.mk.injEq] at h4
          obtain ⟨-, rfl⟩ := h4
          exact (ihA _ _ _ _ h1).trans (ihE _ _ _ _ _ h3)
    -- processMap
    · intro x st r st2 h
      rw [processMap_succ heap venv f x st] at h
      cases x with
      | mapV kt vt es =>
        simp only at h
        obtain ⟨⟨es2, st1⟩, h1, h2⟩ := obind_eq_ok h
        simp only [Out.ok.injEq, Prod.mk.injEq] at h2
        obtain ⟨-, rfl⟩ := h2
        exact ihEnt _ _ _ _ _ _ _ h1
      | nilMapV kt vt =>
        simp only [Out.ok.injEq, Prod.mk.injEq] at h
        obtain ⟨-, rfl⟩ := h
        exact fun a ha => ha
      | nilV => cases h
      | intV n => cases h
      | int64V n => cases h
      | strV s => cases h
      | boolV b => cases h
      | structV fs => cases h
      | nilSliceV t => cases h
      | sliceV t es => cases h
      | arrayV t es => cases h
      | ptrV t a vid => cases h
      | valuerV vid => cases h
      | attrsOf g => cases h
    -- processEntries
    · intro kt vt es acc st rs st2 h
      rw [processEntries_succ heap venv f kt vt es acc st] at h
      cases es with
      | nil =>
        simp only [Out.ok.injEq, Prod.mk.injEq] at h
        obtain ⟨-, rfl⟩ := h
        exact fun a ha => ha
      | cons k v rest =>
        simp only at h
        obtain ⟨⟨rk, st1⟩, h1, h2⟩ := obind_eq_ok h
        obtain ⟨⟨rv, st3⟩, h3, h4⟩ := obind_eq_ok h2
        cases hrt : reflectTypeOf (anyOut rk) with
        | none => simp only [hrt] at h4; exact Out.noConfusion h4
        | some tk =>
          simp only [hrt] at h4
          by_cases htk : tk = kt
          · rw [if_pos htk] at h4
            cases hrt2 : reflectTypeOf (anyOut rv) with
            | none => simp only [hrt2] at h4; exact Out.noConfusion h4
            | some tv =>
              simp only [hrt2] at h4
              exact ((ihA _ _ _ _ h1).trans (ihA _ _ _ _ h3)).trans
                (ihEnt _ _ _ _ _ _ _ h4)
          · rw [if_neg htk] at h4
            exact ((ihA _ _ _ _ h1).trans (ihA _ _ _ _ h3)).trans
              (ihEnt _ _ _ _ _ _ _ h4)

/-! ## Adequacy: on valuer-free graphs every walk gets enough fuel -/

theorem obind_ne_hungry {α β : Type} {o : Out α} {k : α → Out β}
    (ho : o ≠ .hungry) (hk : ∀ a, k a ≠ .hungry) : obind o k ≠ .hungry := by
  cases o with
  | hungry => exact absurd rfl ho
  | panicked => simp
  | ok a => simpa using hk a

theorem adequacyAll (heap : Heap) (venv : Nat → SlogVal)
    (hhf : heapValuerFree heap = true) :
    ∀ u s : Nat,
      (∀ ty es st, valuerFreeL es = true → unvisited heap st.visited ≤ u →
        sizeOf es ≤ s → ∃ f, processElems heap venv f ty es st ≠ .hungry) ∧
      (∀ kt vt es acc st, valuerFreeE es = true →
        unvisited heap st.visited ≤ u → sizeOf es ≤ s →
        ∃ f, processEntries heap venv f kt vt es acc st ≠ .hungry) ∧
      (∀ fs st, valuerFreeF fs = true → unvisited heap st.visited ≤ u →
        sizeOf fs ≤ s → ∃ f, processFields heap venv f fs st ≠ .hungry) ∧
      (∀ fs st, valuerFreeF fs = true → unvisited heap st.visited ≤ u →
        sizeOf fs ≤ s → ∃ f, processStruct heap venv f fs st ≠ .hungry) ∧
      (∀ x st, valuerFreeV x = true → unvisited heap st.visited ≤ u →
        sizeOf x ≤ s → ∃ f, processSliceOrArray heap venv f x st ≠ .hungry) ∧
      (∀ x st, valuerFreeV x = true → unvisited heap st.visited ≤ u →
        sizeOf x ≤ s → ∃ f, processMap heap venv f x st ≠ .hungry) ∧
      (∀ x st, valuerFreeV x = true → unvisited heap st.visited ≤ u →
        sizeOf x ≤ s → ∃ f, afterLoop heap venv f x st ≠ .hungry) ∧
      (∀ x st, valuerFreeV x = true → unvisited heap st.visited ≤ u →
        sizeOf x ≤ s → ∃ f, derefLoop heap venv f x st ≠ .hungry) ∧
      (∀ x st, valuerFreeV x = true → unvisited heap st.visited ≤ u →
        sizeOf x ≤ s → ∃ f, processAny heap venv f x st ≠ .hungry) := by
  intro u
  induction u using Nat.strong_induction_on with
  | _ u ihu =>
  intro s
  induction s using Nat.strong_induction_on with
  | _ s ihs =>
  have hElems : ∀ ty es st, valuerFreeL es = true →
      unvisited heap st.visited ≤ u → sizeOf es ≤ s →
      ∃ f, processElems heap venv f ty es st ≠ .hungry := by
    intro ty es st hvf hun hsz
    cases es with
    | nil => exact ⟨1, by rw [processElems_succ]; simp⟩
    | cons e rest =>
      simp only [valuerFreeL, Bool.and_eq_true] at hvf
      have hlt1 : sizeOf e < sizeOf (VList.cons e rest) := by simp <;> omega
      have hlt2 : sizeOf rest < sizeOf (VList.cons e rest) := by simp <;> omega
      obtain ⟨f1, hf1⟩ := (ihs (sizeOf e) (by omega)).2.2.2.2.2.2.2.2
        e st hvf.1 hun (Nat.le_refl _)
      cases hres : processAny heap venv f1 e st with
      | hungry => exact absurd hres hf1
      | panicked => exact ⟨f1 + 1, by rw [processElems_succ]; simp [hres]⟩
      | ok p =>
        obtain ⟨r, st1⟩ := p
        have hsub := (visitedMono heap venv f1).2.2.1 e st r st1 hres
        have hun1 : unvisited heap st1.visited ≤ u :=
          Nat.le_trans (unvisited_anti heap hsub) hun
        cases hrt : reflectTypeOf (anyOut r) with
        | none => exact ⟨f1 + 1, by rw [processElems_succ]; simp [hres, hrt]⟩
        | some t =>
          obtain ⟨f2, hf2⟩ := (ihs (sizeOf rest) (by omega)).1
            ty rest st1 hvf.2 hun1 (Nat.le_refl _)
          refine ⟨max f1 f2 + 1, ?_⟩
          rw [processElems_succ]
          simp only
          rw [processAny_mono_le heap venv (Nat.le_max_left f1 f2)
            (by rw [hres]; simp), hres]
          simp only [obind_ok, hrt]
          refine obind_ne_hungry ?_ (fun a => by rcases a with ⟨rs, st2⟩; simp)
          rw [processElems_mono_le heap venv (Nat.le_max_right f1 f2) hf2]
          exact hf2
  have hEntries : ∀ kt vt es acc st, valuerFreeE es = true →
      unvisited heap st.visited ≤ u → sizeOf es ≤ s →
      ∃ f, processEntries heap venv f kt vt es acc st ≠ .hungry := by
    intro kt vt es acc st hvf hun hsz
    cases es with
    | nil => exact ⟨1, by rw [processEntries_succ]; simp⟩
    | cons k v rest =>
      simp only [valuerFreeE, Bool.and_eq_true] at hvf
      have hlt1 : sizeOf k < sizeOf (EList.cons k v rest) := by simp <;> omega
      have hlt2 : sizeOf v < sizeOf (EList.cons k v rest) := by simp <;> omega
      have hlt3 : sizeOf rest < sizeOf (EList.cons k v rest) := by simp <;> omega
      obtain ⟨f1, hf1⟩ := (ihs (sizeOf k) (by omega)).2.2.2.2.2.2.2.2
        k st hvf.1.1 hun (Nat.le_refl _)
      cases hres1 : processAny heap venv f1 k st with
      | hungry => exact absurd hres1 hf1
      | panicked => exact ⟨f1 + 1, by rw [processEntries_succ]; simp [hres1]⟩
      | ok p =>
        obtain ⟨rk, st1⟩ := p
        have hsub1 := (visitedMono heap venv f1).2.2.1 k st rk st1 hres1
        have hun1 : unvisited heap st1.visited ≤ u :=
          Nat.le_trans (unvisited_anti heap hsub1) hun
        obtain ⟨f2, hf2⟩ := (ihs (sizeOf v) (by omega)).2.2.2.2.2.2.2.2
          v st1 hvf.1.2 hun1 (Nat.le_refl _)
        cases hres2 : processAny heap venv f2 v st1 with
        | hungry => exact absurd hres2 hf2
        | panicked =>
          refine ⟨max f1 f2 + 1, ?_⟩
          rw [processEntries_succ]
          simp only
          rw [processAny_mono_le heap venv (Nat.le_max_left f1 f2)
            (by rw [hres1]; simp), hres1]
          simp only [obind_ok]
          rw [processAny_mono_le heap venv (Nat.le_max_right f1 f2)
            (by rw [hres2]; simp), hres2]
          simp
        | ok q =>
          obtain ⟨rv, st2⟩ := q
          have hsub2 := (visitedMono heap venv f2).2.2.1 v st1 rv st2 hres2
          have hun2 : unvisited heap st2.visited ≤ u :=
            Nat.le_trans (unvisited_anti heap hsub2) hun1
          cases hrt1 : reflectTypeOf (anyOut rk) with
          | none =>
            refine ⟨max f1 f2 + 1, ?_⟩
            rw [processEntries_succ]
            simp only
            rw [processAny_mono_le heap venv (Nat.le_max_left f1 f2)
              (by rw [hres1]; simp), hres1]
            simp only [obind_ok]
            rw [processAny_mono_le heap venv (Nat.le_max_right f1 f2)
              (by rw [hres2]; simp), hres2]
            simp [hrt1]
          | some tk =>
            by_cases htk : tk = kt
            · cases hrt2 : reflectTypeOf (anyOut rv) with
              | none =>
                refine ⟨max f1 f2 + 1, ?_⟩
                rw [processEntries_succ]
                simp only
                rw [processAny_mono_le heap venv (Nat.le_max_left f1 f2)
                  (by rw [hres1]; simp), hres1]
                simp only [obind_ok]
                rw [processAny_mono_le heap venv (Nat.le_max_right f1 f2)
                  (by rw [hres2]; simp), hres2]
                simp [hrt1, htk, hrt2]
              | some tv =>
                obtain ⟨f3, hf3⟩ := (ihs (sizeOf rest) (by omega)).2.1 kt vt rest
                  (if tv = vt then upsert acc (anyOut rk) (anyOut rv) else acc)
                  st2 hvf.2 hun2 (Nat.le_refl _)
                refine ⟨max (max f1 f2) f3 + 1, ?_⟩
                rw [processEntries_succ]
                simp only
                rw [processAny_mono_le heap venv
                  (Nat.le_trans (Nat.le_max_left f1 f2)
                    (Nat.le_max_left (max f1 f2) f3))
                  (by rw [hres1]; simp), hres1]
                simp only [obind_ok]
                rw [processAny_mono_le heap venv
                  (Nat.le_trans (Nat.le_max_right f1 f2)
                    (Nat.le_max_left (max f1 f2) f3))
                  (by rw [hres2]; simp), hres2]
                simp only [obind_ok, hrt1, if_pos htk, hrt2]
                rw [processEntries_mono_le heap venv
                  (Nat.le_max_right (max f1 f2) f3) hf3]
                exact hf3
            · obtain ⟨f3, hf3⟩ := (ihs (sizeOf rest) (by omega)).2.1 kt vt rest
                acc st2 hvf.2 hun2 (Nat.le_refl _)
              refine ⟨max (max f1 f2) f3 + 1, ?_⟩
              rw [processEntries_succ]
              simp only
              rw [processAny_mono_le heap venv
                (Nat.le_trans (Nat.le_max_left f1 f2)
                  (Nat.le_max_left (max f1 f2) f3))
                (by rw [hres1]; simp), hres1]
              simp only [obind_ok]
              rw [processAny_mono_le heap venv
                (Nat.le_trans (Nat.le_max_right f1 f2)
                  (Nat.le_max_left (max f1 f2) f3))
                (by rw [hres2]; simp), hres2]
              simp only [obind_ok, hrt1, if_neg htk]
              rw [processEntries_mono_le heap venv
                (Nat.le_max_right (max f1 f2) f3) hf3]
              exact hf3
  have hFields : ∀ fs st, valuerFreeF fs = true →
      unvisited heap st.visited ≤ u → sizeOf fs ≤ s →
      ∃ f, processFields heap venv f fs st ≠ .hungry := by
    intro fs st hvf hun hsz
    cases fs with
    | nil => exact ⟨1, by rw [processFields_succ]; simp⟩
    | cons n tag ex ty v rest =>
      simp only [valuerFreeF, Bool.and_eq_true] at hvf
      have hlt1 : sizeOf v < sizeOf (Fields.cons n tag ex ty v rest) := by
        simp <;> omega
      have hlt2 : sizeOf rest < sizeOf (Fields.cons n tag ex ty v rest) := by
        simp <;> omega
      cases ex with
      | false =>
        obtain ⟨f1, hf1⟩ := (ihs (sizeOf rest) (by omega)).2.2.1
          rest st hvf.2 hun (Nat.le_refl _)
        refine ⟨f1 + 1, ?_⟩
        rw [processFields_succ]
        simp only [reduceIte]
        exact obind_ne_hungry hf1 (fun a => by rcases a with ⟨rs, st1⟩; simp)
      | true =>
        by_cases htag : tag = ""
        · subst htag
          obtain ⟨f1, hf1⟩ := (ihs (sizeOf v) (by omega)).2.2.2.2.2.2.2.2
            v st hvf.1 hun (Nat.le_refl _)
          cases hres : processAny heap venv f1 v st with
          | hungry => exact absurd hres hf1
          | panicked =>
            refine ⟨f1 + 1, ?_⟩
            rw [processFields_succ]
            simp [hres]
          | ok p =>
            obtain ⟨r, st1⟩ := p
            have hsub := (visitedMono heap venv f1).2.2.1 v st r st1 hres
            have hun1 : unvisited heap st1.visited ≤ u :=
              Nat.le_trans (unvisited_anti heap hsub) hun
            cases hrt : reflectTypeOf (anyOut r) with
            | none =>
              refine ⟨f1 + 1, ?_⟩
              rw [processFields_succ]
              simp [hres, hrt]
            | some t =>
              obtain ⟨f2, hf2⟩ := (ihs (sizeOf rest) (by omega)).2.2.1
                rest st1 hvf.2 hun1 (Nat.le_refl _)
              refine ⟨max f1 f2 + 1, ?_⟩
              rw [processFields_succ]
              simp only [reduceIte, ne_eq, not_true_eq_false, if_false]
              rw [processAny_mono_le heap venv (Nat.le_max_left f1 f2)
                (by rw [hres]; simp), hres]
              simp only [obind_ok, hrt]
              refine obind_ne_hungry ?_
                (fun a => by rcases a with ⟨rs, st2⟩; simp)
              rw [processFields_mono_le heap venv (Nat.le_max_right f1 f2) hf2]
              exact hf2
        · obtain ⟨f1, hf1⟩ := (ihs (sizeOf rest) (by omega)).2.2.1
            rest st hvf.2 hun (Nat.le_refl _)
          refine ⟨f1 + 1, ?_⟩
          rw [processFields_succ]
          simp only [htag, reduceIte, ne_eq, not_false_eq_true, if_true]
          exact obind_ne_hungry hf1 (fun a => by rcases a with ⟨rs, st1⟩; simp)
  have hStruct : ∀ fs st, valuerFreeF fs = true →
      unvisited heap st.visited ≤ u → sizeOf fs ≤ s →
      ∃ f, processStruct heap venv f fs st ≠ .hungry := by
    intro fs st hvf hun hsz
    obtain ⟨f1, hf1⟩ := hFields fs st hvf hun hsz
    refine ⟨f1 + 1, ?_⟩
    rw [processStruct_succ]
    exact obind_ne_hungry hf1 (fun a => by rcases a with ⟨fs2, st1⟩; simp)
  have hSoA : ∀ x st, valuerFreeV x = true →
      unvisited heap st.visited ≤ u → sizeOf x ≤ s →
      ∃ f, processSliceOrArray heap venv f x st ≠ .hungry := by
    intro x st hvf hun hsz
    cases x with
    | sliceV t es =>
      have hlt : sizeOf es < sizeOf (GoVal.sliceV t es) := by simp <;> omega
      obtain ⟨f1, hf1⟩ := hElems t es st (by simpa [valuerFreeV] using hvf)
        hun (by omega)
      refine ⟨f1 + 1, ?_⟩
      rw [processSliceOrArray_succ]
      simp only
      exact obind_ne_hungry hf1 (fun a => by rcases a with ⟨es2, st1⟩; simp)
    | nilSliceV t => exact ⟨1, by rw [processSliceOrArray_succ]; simp⟩
    | arrayV t es => exact ⟨1, by rw [processSliceOrArray_succ]; simp⟩
    | nilV => exact ⟨1, by rw [processSliceOrArray_succ]; simp⟩
    | intV n => exact ⟨1, by rw [processSliceOrArray_succ]; simp⟩
    | int64V n => exact ⟨1, by rw [processSliceOrArray_succ]; simp⟩
    | strV s0 => exact ⟨1, by rw [processSliceOrArray_succ]; simp⟩
    | boolV b => exact ⟨1, by rw [processSliceOrArray_succ]; simp⟩
    | structV fs => exact ⟨1, by rw [processSliceOrArray_succ]; simp⟩
    | nilMapV kt vt => exact ⟨1, by rw [processSliceOrArray_succ]; simp⟩
    | mapV kt vt es => exact ⟨1, by rw [processSliceOrArray_succ]; simp⟩
    | ptrV t a vid => exact ⟨1, by rw [processSliceOrArray_succ]; simp⟩
    | valuerV vid => exact ⟨1, by rw [processSliceOrArray_succ]; simp⟩
    | attrsOf g => exact ⟨1, by rw [processSliceOrArray_succ]; simp⟩
  have hMap : ∀ x st, valuerFreeV x = true →
      unvisited heap st.visited ≤ u → sizeOf x ≤ s →
      ∃ f, processMap heap venv f x st ≠ .hungry := by
    intro x st hvf hun hsz
    cases x with
    | mapV kt vt es =>
      have hlt : sizeOf es < sizeOf (GoVal.mapV kt vt es) := by simp <;> omega
      obtain ⟨f1, hf1⟩ := hEntries kt vt es .nil st
        (by simpa [valuerFreeV] using hvf) hun (by omega)
      refine ⟨f1 + 1, ?_⟩
      rw [processMap_succ]
      simp only
      exact obind_ne_hungry hf1 (fun a => by rcases a with ⟨es2, st1⟩; simp)
    | nilMapV kt vt => exact ⟨1, by rw [processMap_succ]; simp⟩
    | nilV => exact ⟨1, by rw [processMap_succ]; simp⟩
    | intV n => exact ⟨1, by rw [processMap_succ]; simp⟩
    | int64V n => exact ⟨1, by rw [processMap_succ]; simp⟩
    | strV s0 => exact ⟨1, by rw [processMap_succ]; simp⟩
    | boolV b => exact ⟨1, by rw [processMap_succ]; simp⟩
    | structV fs => exact ⟨1, by rw [processMap_succ]; simp⟩
    | nilSliceV t => exact ⟨1, by rw [processMap_succ]; simp⟩
    | sliceV t es => exact ⟨1, by rw [processMap_succ]; simp⟩
    | arrayV t es => exact ⟨1, by rw [processMap_succ]; simp⟩
    | ptrV t a vid => exact ⟨1, by rw [processMap_succ]; simp⟩
    | valuerV vid => exact ⟨1, by rw [processMap_succ]; simp⟩
    | attrsOf g => exact ⟨1, by rw [processMap_succ]; simp⟩
  have hAfter : ∀ x st, valuerFreeV x = true →
      unvisited heap st.visited ≤ u → sizeOf x ≤ s →
      ∃ f, afterLoop heap venv f x st ≠ .hungry := by
    intro x st hvf hun hsz
    cases x with
    | structV fs =>
      have hlt : sizeOf fs < sizeOf (GoVal.structV fs) := by simp <;> omega
      obtain ⟨f1, hf1⟩ := hStruct fs st (by simpa [valuerFreeV] using hvf)
        hun (by omega)
      exact ⟨f1 + 1, by rw [afterLoop_succ]; exact hf1⟩
    | nilSliceV t =>
      obtain ⟨f1, hf1⟩ := hSoA (.nilSliceV t) st hvf hun hsz
      exact ⟨f1 + 1, by rw [afterLoop_succ]; exact hf1⟩
    | sliceV t es =>
      obtain ⟨f1, hf1⟩ := hSoA (.sliceV t es) st hvf hun hsz
      exact ⟨f1 + 1, by rw [afterLoop_succ]; exact hf1⟩
    | arrayV t es =>
      obtain ⟨f1, hf1⟩ := hSoA (.arrayV t es) st hvf hun hsz
      exact ⟨f1 + 1, by rw [afterLoop_succ]; exact hf1⟩
    | nilMapV kt vt =>
      obtain ⟨f1, hf1⟩ := hMap (.nilMapV kt vt) st hvf hun hsz
      exact ⟨f1 + 1, by rw [afterLoop_succ]; exact hf1⟩
    | mapV kt vt es =>
      obtain ⟨f1, hf1⟩ := hMap (.mapV kt vt es) st hvf hun hsz
      exact ⟨f1 + 1, by rw [afterLoop_succ]; exact hf1⟩
    | nilV => exact ⟨1, by rw [afterLoop_succ]; simp⟩
    | intV n => exact ⟨1, by rw [afterLoop_succ]; simp⟩
    | int64V n => exact ⟨1, by rw [afterLoop_succ]; simp⟩
    | strV s0 => exact ⟨1, by rw [afterLoop_succ]; simp⟩
    | boolV b => exact ⟨1, by rw [afterLoop_succ]; simp⟩
    | ptrV t a vid => exact ⟨1, by rw [afterLoop_succ]; simp⟩
    | valuerV vid => exact ⟨1, by rw [afterLoop_succ]; simp⟩
    | attrsOf g => exact ⟨1, by rw [afterLoop_succ]; simp⟩
  have hDeref : ∀ x st, valuerFreeV x = true →
      unvisited heap st.visited ≤ u → sizeOf x ≤ s →
      ∃ f, derefLoop heap venv f x st ≠ .hungry := by
    intro x st hvf hun hsz
    cases x with
    | ptrV t addr vid =>
      cases addr with
      | none => exact ⟨1, by rw [derefLoop_succ]; simp⟩
      | some a =>
        cases vid with
        | some w => simp [valuerFreeV] at hvf
        | none =>
          by_cases hmem : a ∈ st.visited
          · exact ⟨1, by rw [derefLoop_succ]; simp [hmem]⟩
          · by_cases hdom : a ∈ heap.map Prod.fst
            · have hlt : unvisited heap (a :: st.visited) < u :=
                Nat.lt_of_lt_of_le (unvisited_mark_lt hdom hmem) hun
              obtain ⟨f1, hf1⟩ :=
                ((ihu (unvisited heap (a :: st.visited)) hlt
                  (sizeOf (heapGet heap a))).2.2.2.2.2.2.2.1 :
                  ∀ x2 st2, valuerFreeV x2 = true →
                    unvisited heap st2.visited ≤
                      unvisited heap (a :: st.visited) →
                    sizeOf x2 ≤ sizeOf (heapGet heap a) →
                    ∃ f, derefLoop heap venv f x2 st2 ≠ .hungry)
                  (heapGet heap a) ⟨a :: st.visited, st.gh⟩
                  (heapGet_valuerFree hhf a) (Nat.le_refl _) (Nat.le_refl _)
              refine ⟨f1 + 1, ?_⟩
              rw [derefLoop_succ]
              simp only [hmem, if_false, reduceIte]
              exact hf1
            · have hnil := heapGet_of_not_mem hdom
              refine ⟨3, ?_⟩
              rw [derefLoop_succ]
              simp only [hmem, if_false, reduceIte, hnil]
              rw [derefLoop_succ]
              simp [afterLoop_succ, slogAnyValue]
    | nilV =>
      obtain ⟨f1, hf1⟩ := hAfter .nilV st hvf hun hsz
      exact ⟨f1 + 1, by rw [derefLoop_succ]; exact hf1⟩
    | intV n =>
      obtain ⟨f1, hf1⟩ := hAfter (.intV n) st hvf hun hsz
      exact ⟨f1 + 1, by rw [derefLoop_succ]; exact hf1⟩
    | int64V n =>
      obtain ⟨f1, hf1⟩ := hAfter (.int64V n) st hvf hun hsz
      exact ⟨f1 + 1, by rw [derefLoop_succ]; exact hf1⟩
    | strV s0 =>
      obtain ⟨f1, hf1⟩ := hAfter (.strV s0) st hvf hun hsz
      exact ⟨f1 + 1, by rw [derefLoop_succ]; exact hf1⟩
    | boolV b =>
      obtain ⟨f1, hf1⟩ := hAfter (.boolV b) st hvf hun hsz
      exact ⟨f1 + 1, by rw [derefLoop_succ]; exact hf1⟩
    | structV fs =>
      obtain ⟨f1, hf1⟩ := hAfter (.structV fs) st hvf hun hsz
      exact ⟨f1 + 1, by rw [derefLoop_succ]; exact hf1⟩
    | nilSliceV t =>
      obtain ⟨f1, hf1⟩ := hAfter (.nilSliceV t) st hvf hun hsz
      exact ⟨f1 + 1, by rw [derefLoop_succ]; exact hf1⟩
    | sliceV t es =>
      obtain ⟨f1, hf1⟩ := hAfter (.sliceV t es) st hvf hun hsz
      exact ⟨f1 + 1, by rw [derefLoop_succ]; exact hf1⟩
    | arrayV t es =>
      obtain ⟨f1, hf1⟩ := hAfter (.arrayV t es) st hvf hun hsz
      exact ⟨f1 + 1, by rw [derefLoop_succ]; exact hf1⟩
    | nilMapV kt vt =>
      obtain ⟨f1, hf1⟩ := hAfter (.nilMapV kt vt) st hvf hun hsz
      exact ⟨f1 + 1, by rw [derefLoop_succ]; exact hf1⟩
    | mapV kt vt es =>
      obtain ⟨f1, hf1⟩ := hAfter (.mapV kt vt es) st hvf hun hsz
      exact ⟨f1 + 1, by rw [derefLoop_succ]; exact hf1⟩
    | valuerV vid => simp [valuerFreeV] at hvf
    | attrsOf g =>
      obtain ⟨f1, hf1⟩ := hAfter (.attrsOf g) st hvf hun hsz
      exact ⟨f1 + 1, by rw [derefLoop_succ]; exact hf1⟩
  have hAny : ∀ x st, valuerFreeV x = true →
      unvisited heap st.visited ≤ u → sizeOf x ≤ s →
      ∃ f, processAny heap venv f x st ≠ .hungry := by
    intro x st hvf hun hsz
    cases x with
    | nilV => exact ⟨1, by rw [processAny_succ]; simp⟩
    | valuerV vid => simp [valuerFreeV] at hvf
    | ptrV t a vid =>
      cases vid with
      | some w => simp [valuerFreeV] at hvf
      | none =>
        obtain ⟨f1, hf1⟩ := hDeref (.ptrV t a none) st hvf hun hsz
        exact ⟨f1 + 1, by rw [processAny_succ]; simpa [isLogValuer] using hf1⟩
    | intV n =>
      obtain ⟨f1, hf1⟩ := hDeref (.intV n) st hvf hun hsz
      exact ⟨f1 + 1, by rw [processAny_succ]; simpa [isLogValuer] using hf1⟩
    | int64V n =>
      obtain ⟨f1, hf1⟩ := hDeref (.int64V n) st hvf hun hsz
      exact ⟨f1 + 1, by rw [processAny_succ]; simpa [isLogValuer] using hf1⟩
    | strV s0 =>
      obtain ⟨f1, hf1⟩ := hDeref (.strV s0) st hvf hun hsz
      exact ⟨f1 + 1, by rw [processAny_succ]; simpa [isLogValuer] using hf1⟩
    | boolV b =>
      obtain ⟨f1, hf1⟩ := hDeref (.boolV b) st hvf hun hsz
      exact ⟨f1 + 1, by rw [processAny_succ]; simpa [isLogValuer] using hf1⟩
    | structV fs =>
      obtain ⟨f1, hf1⟩ := hDeref (.structV fs) st hvf hun hsz
      exact ⟨f1 + 1, by rw [processAny_succ]; simpa [isLogValuer] using hf1⟩
    | nilSliceV t =>
      obtain ⟨f1, hf1⟩ := hDeref (.nilSliceV t) st hvf hun hsz
      exact ⟨f1 + 1, by rw [processAny_succ]; simpa [isLogValuer] using hf1⟩
    | sliceV t es =>
      obtain ⟨f1, hf1⟩ := hDeref (.sliceV t es) st hvf hun hsz
      exact ⟨f1 + 1, by rw [processAny_succ]; simpa [isLogValuer] using hf1⟩
    | arrayV t es =>
      obtain ⟨f1, hf1⟩ := hDeref (.arrayV t es) st hvf hun hsz
      exact ⟨f1 + 1, by rw [processAny_succ]; simpa [isLogValuer] using hf1⟩
    | nilMapV kt vt =>
      obtain ⟨f1, hf1⟩ := hDeref (.nilMapV kt vt) st hvf hun hsz
      exact ⟨f1 + 1, by rw [processAny_succ]; simpa [isLogValuer] using hf1⟩
    | mapV kt vt es =>
      obtain ⟨f1, hf1⟩ := hDeref (.mapV kt vt es) st hvf hun hsz
      exact ⟨f1 + 1, by rw [processAny_succ]; simpa [isLogValuer] using hf1⟩
    | attrsOf g =>
      obtain ⟨f1, hf1⟩ := hDeref (.attrsOf g) st hvf hun hsz
      exact ⟨f1 + 1, by rw [processAny_succ]; simpa [isLogValuer] using hf1⟩
  exact ⟨hElems, hEntries, hFields, hStruct, hSoA, hMap, hAfter, hDeref, hAny⟩

/-! ## Claim C2 -/

/-- C2 (code_bug): the claim says `ReplaceAttr` and its helpers are total
over the value model, including arrays, but `processSliceOrArray` starts
with `rv.IsNil()`, which panics on every array value: logging the array
`[1]int{5}` panics the hook. -/
theorem C2_array_input_panics :
    ReplaceAttr heap0 venv0 10 []
      ⟨"data", .anyV (.arrayV .intT (.cons (.intV 5) .nil))⟩ [] = .panicked := by
  rfl

/-! ## Claim C9 -/

/-- C9 (confirmed): nil references, nil slices and nil maps all normalize
to `AnyValue(nil)` (the model's `Null`), while empty-but-present slices
and maps come back as empty containers, distinct from `Null`. -/
theorem C9_nil_vs_empty (heap : Heap) (venv : Nat → SlogVal) (f : Nat)
    (t kt vt : GoTy) (st : St) :
    processAny heap venv (f + 2) (.ptrV t none none) st = .ok (.anyV .nilV, st) ∧
    processAny heap venv (f + 4) (.nilSliceV t) st = .ok (.anyV .nilV, st) ∧
    processAny heap venv (f + 4) (.nilMapV kt vt) st = .ok (.anyV .nilV, st) ∧
    processAny heap venv (f + 5) (.sliceV t .nil) st =
      .ok (.anyV (.sliceV t .nil), st) ∧
    processAny heap venv (f + 5) (.mapV kt vt .nil) st =
      .ok (.anyV (.mapV kt vt .nil), st) ∧
    (SlogVal.anyV (.sliceV t .nil) ≠ .anyV .nilV) ∧
    (SlogVal.anyV (.mapV kt vt .nil) ≠ .anyV .nilV) := by
  refine ⟨?_, ?_, ?_, ?_, ?_, by simp, by simp⟩ <;>
    simp [processAny, derefLoop, afterLoop, processSliceOrArray, processMap,
      processElems, processEntries, isLogValuer, obind]

/-! ## Claim C8 -/

/-- C8 (confirmed): the hook ignores the group path: two calls that agree
on everything but `groups` return identical results (the cycle tracker is
visibly allocated fresh — empty — inside `ReplaceAttr` itself, so no
tracker state can flow between invocations). -/
theorem C8_group_path_ignored (heap : Heap) (venv : Nat → SlogVal)
    (fuel : Nat) (gs1 gs2 : List String) (a : Attr) (gh : GHeap) :
    ReplaceAttr heap venv fuel gs1 a gh = ReplaceAttr heap venv fuel gs2 a gh := by
  rfl

/-! ## Claim C5 -/

theorem processValue_selfPtr_hungry (heap : Heap) :
    ∀ (f : Nat) (st : St),
      processValue heap venvSelf f (.anyV selfPtr) st = .hungry := by
  intro f
  induction f with
  | zero => intro st; rfl
  | succ f ih =>
    intro st
    simp only [processValue, selfPtr, isLogValuer]
    exact ih st

/-- C5 (code_bug): a value that is both a reference and a resolvable is
resolved by the `val.(slog.LogValuer)` test at the top of `processAny`
before any cycle-tracker bookkeeping, so a pointer whose `LogValue()`
returns `slog.AnyValue` of the pointer itself recurses forever: the run
exhausts every fuel bound. -/
theorem C5_self_resolvable_diverges (heap : Heap) (fuel : Nat)
    (gs : List String) (gh : GHeap) :
    ReplaceAttr heap venvSelf fuel gs ⟨"data", .anyV selfPtr⟩ gh = .hungry := by
  simp [ReplaceAttr, processValue_selfPtr_hungry heap fuel ⟨[], gh⟩]

/-! ## Claim C4 -/

/-- C4 (code_bug): the claim says the walker never mutates the original
value graph, including the attr lists of group values; but the group case
of `processValue` writes each redacted attr back through the alias that
`Value.Group()` returns, so after the call the original group's backing
array (group-heap address 0) holds the redacted attrs, not its original
content. -/
theorem C4_group_backing_mutated :
    ReplaceAttr heap0 venv0 100 [] ⟨"g", .groupV 0⟩ gh0 =
      .ok (⟨"g", .groupV 0⟩, (0, [⟨"n", .anyV nestedRed⟩]) :: gh0) ∧
    ghGet ((0, [⟨"n", .anyV nestedRed⟩]) :: gh0) 0 ≠ ghGet gh0 0 ∧
    nestedRed ≠ nestedVal := by
  refine ⟨by decide, by decide, by decide⟩

/-! ## Claim C1 -/

/-- C1 counterexample: a struct whose only sentinel-tagged field is
unexported is returned with that field's runtime value intact — the copy
`newStruct.Set(rv)` keeps it and the loop `continue`s on
`!CanInterface()` — so the redacted output's field is not the zero value
of its declared type. -/
theorem C1_counterexample :
    processAny heap0 venv0 10 unexpVal ⟨[], []⟩ = .ok (.anyV unexpVal, ⟨[], []⟩) ∧
    fieldAt (.cons "secret" "true" false .strT (.strV "Top") .nil) 0 =
      some ("secret", "true", false, .strT, .strV "Top") ∧
    GoVal.strV "Top" ≠ zeroOf .strT := by
  refine ⟨by decide, by decide, by decide⟩

theorem processFields_spec {heap : Heap} {venv : Nat → SlogVal} :
    ∀ {fuel : Nat} {fs : Fields} {st : St} {out : Fields} {st2 : St},
      processFields heap venv fuel fs st = .ok (out, st2) →
      ∀ i n tag ex ty v, fieldAt fs i = some (n, tag, ex, ty, v) →
        ∃ v2, fieldAt out i = some (n, tag, ex, ty, v2) ∧
          (ex = true → tag ≠ "" → v2 = zeroOf ty) := by
  intro fuel
  induction fuel with
  | zero => intro fs st out st2 h; simp [processFields] at h
  | succ fuel ih =>
    intro fs st out st2 h i n tag ex ty v hf
    cases fs with
    | nil => simp [fieldAt] at hf
    | cons n0 tag0 ex0 ty0 v0 rest =>
      cases ex0 with
      | false =>
        simp only [processFields, reduceIte] at h
        obtain ⟨⟨rs, st1⟩, hrest, hout⟩ := obind_eq_ok h
        cases hout
        cases i with
        | zero =>
          simp only [fieldAt, Option.some.injEq, Prod.mk.injEq] at hf
          obtain ⟨rfl, rfl, rfl, rfl, rfl⟩ := hf
          exact ⟨v0, rfl, fun hextrue _ => absurd hextrue (by decide)⟩
        | succ i => exact ih hrest i n tag ex ty v hf
      | true =>
        by_cases htag : tag0 = ""
        · subst htag
          simp only [processFields, reduceIte, ne_eq, not_true_eq_false,
            if_false] at h
          obtain ⟨⟨r1, st1⟩, hone, h2⟩ := obind_eq_ok h
          cases hr : reflectTypeOf (anyOut r1) with
          | none => rw [hr] at h2; cases h2
          | some t =>
            rw [hr] at h2
            obtain ⟨⟨rs, st3⟩, hrest, hout⟩ := obind_eq_ok h2
            cases hout
            cases i with
            | zero =>
              simp only [fieldAt, Option.some.injEq, Prod.mk.injEq] at hf
              obtain ⟨rfl, rfl, rfl, rfl, rfl⟩ := hf
              exact ⟨_, rfl, fun _ htagne => absurd rfl htagne⟩
            | succ i => exact ih hrest i n tag ex ty v hf
        · simp only [processFields, htag, reduceIte, ne_eq,
            not_false_eq_true, if_true] at h
          obtain ⟨⟨rs, st1⟩, hrest, hout⟩ := obind_eq_ok h
          cases hout
          cases i with
          | zero =>
            simp only [fieldAt, Option.some.injEq, Prod.mk.injEq] at hf
            obtain ⟨rfl, rfl, rfl, rfl, rfl⟩ := hf
            exact ⟨zeroOf ty0, rfl, fun _ _ => rfl⟩
          | succ i => exact ih hrest i n tag ex ty v hf

/-- C1 (corrected, amended): for every struct value, every **exported**
field whose sentinel tag is non-empty comes back as the zero value of its
declared type, and every field (exported or not) is present in the output
at its position with name, tag, exportedness and declared type preserved.
(The original claim, quantifying over unexported fields too, is refuted by
`C1_counterexample`.) -/
theorem C1_amended_theorem {heap : Heap} {venv : Nat → SlogVal} {fuel : Nat}
    {fs : Fields} {st : St} {r : SlogVal} {st2 : St}
    (h : processStruct heap venv fuel fs st = .ok (r, st2)) :
    ∃ out, r = .anyV (.structV out) ∧
      ∀ i n tag ex ty v, fieldAt fs i = some (n, tag, ex, ty, v) →
        ∃ v2, fieldAt out i = some (n, tag, ex, ty, v2) ∧
          (ex = true → tag ≠ "" → v2 = zeroOf ty) := by
  cases fuel with
  | zero => simp [processStruct] at h
  | succ fuel =>
    simp only [processStruct] at h
    obtain ⟨⟨out, st1⟩, hfs, hok⟩ := obind_eq_ok h
    cases hok
    exact ⟨out, rfl, fun i n tag ex ty v hf => processFields_spec hfs i n tag ex ty v hf⟩

/-- Witness for `C1_amended_theorem` at the `Nested` struct: the exported
sentinel-tagged `Secret` field comes back zeroed. -/
theorem C1_amended_witness :
    (processStruct heap0 venv0 10
        (.cons "Secret" "true" true .strT (.strV "TopSecret") .nil) ⟨[], []⟩ =
      .ok (.anyV (.structV (.cons "Secret" "true" true .strT (.strV "") .nil)),
        ⟨[], []⟩)) ∧
    (∃ out,
      SlogVal.anyV (.structV (.cons "Secret" "true" true .strT (.strV "") .nil)) =
        .anyV (.structV out) ∧
      ∀ i n tag ex ty v,
        fieldAt (.cons "Secret" "true" true .strT (.strV "TopSecret") .nil) i =
          some (n, tag, ex, ty, v) →
        ∃ v2, fieldAt out i = some (n, tag, ex, ty, v2) ∧
          (ex = true → tag ≠ "" → v2 = zeroOf ty)) :=
  ⟨by decide,
    C1_amended_theorem
      (show processStruct heap0 venv0 10
          (.cons "Secret" "true" true .strT (.strV "TopSecret") .nil) ⟨[], []⟩ =
        .ok (.anyV (.structV (.cons "Secret" "true" true .strT (.strV "") .nil)),
          ⟨[], []⟩) by decide)⟩

/-! ## Claim C3 counterexample -/

/-- C3 counterexample: on first visit of a live pointer the walker records
the identity and recurses, but it does **not** rewrap the result as the
same reference kind: redacting `*Nested` yields the bare redacted struct
(`refResult` is false), not a pointer. -/
theorem C3_counterexample :
    processAny heap0 venv0 30 (.ptrV nestedTy (some 7) none) ⟨[], []⟩ =
      .ok (.anyV nestedRed, ⟨[7], []⟩) ∧
    refResult (processAny heap0 venv0 30 (.ptrV nestedTy (some 7) none) ⟨[], []⟩) =
      false := by
  refine ⟨by decide, by decide⟩

/-! ## Claim C6 counterexample -/

/-- C6 counterexample: a non-nil map holding one entry whose value is a
nil `*Nested` panics (`reflect.ValueOf(nil).Type()` in `processMap`), so
no output mapping is built at all — refuting the unconditional per-entry
contract. -/
theorem C6_counterexample :
    processAny heap0 venv0 10
      (.mapV .strT (.ptrT nestedTy)
        (.cons (.strV "a") (.ptrV nestedTy none none) .nil)) ⟨[], []⟩ =
      .panicked := by
  decide

/-! ## Claim C7 counterexample -/

/-- C7 counterexample: a non-nil slice with one nil-pointer element panics
(`reflect.ValueOf(nil).Type()` in `processSliceOrArray`) instead of
returning a same-length sequence — the call fails rather than keeping or
redacting the slot. -/
theorem C7_counterexample :
    processAny heap0 venv0 10
      (.sliceV (.ptrT nestedTy) (.cons (.ptrV nestedTy none none) .nil)) ⟨[], []⟩ =
      .panicked := by
  decide

/-! ## Claim C7 amended -/

theorem processElems_spec {heap : Heap} {venv : Nat → SlogVal} {ty : GoTy} :
    ∀ {fuel : Nat} {es : VList} {st : St} {out : VList} {st2 : St},
      processElems heap venv fuel ty es st = .ok (out, st2) →
      vlen out = vlen es ∧
      ∀ i e, vAt es i = some e →
        ∃ e2, vAt out i = some e2 ∧
          ∃ f1 s1 s2 r t, processAny heap venv f1 e s1 = .ok (r, s2) ∧
            reflectTypeOf (anyOut r) = some t ∧
            e2 = (if t = ty then anyOut r else e) := by
  intro fuel
  induction fuel with
  | zero => intro es st out st2 h; simp [processElems] at h
  | succ fuel ih =>
    intro es st out st2 h
    cases es with
    | nil =>
      simp only [processElems, Out.ok.injEq, Prod.mk.injEq] at h
      obtain ⟨rfl, rfl⟩ := h
      exact ⟨rfl, fun i e hf => by simp [vAt] at hf⟩
    | cons e rest =>
      simp only [processElems] at h
      obtain ⟨⟨r1, st1⟩, hone, h2⟩ := obind_eq_ok h
      cases hr : reflectTypeOf (anyOut r1) with
      | none => rw [hr] at h2; cases h2
      | some t =>
        rw [hr] at h2
        obtain ⟨⟨rs, st3⟩, hrest, hout⟩ := obind_eq_ok h2
        cases hout
        obtain ⟨hlen, hslots⟩ := ih hrest
        refine ⟨by simp [vlen, hlen], fun i e0 hf => ?_⟩
        cases i with
        | zero =>
          simp only [vAt, Option.some.injEq] at hf
          subst hf
          exact ⟨_, rfl, fuel, st, st1, r1, t, hone, hr, rfl⟩
        | succ i => exact hslots i e0 hf

/-- C7 (corrected, amended): for every non-nil slice whose per-element
redactions all complete (an element that redacts to nil panics the call —
see `C7_counterexample`), the walker returns a fresh slice of equal
length in which, slot by slot and in order, an element whose redacted
result is assignable to the element type is replaced by it, and any other
slot keeps the pre-redaction original element. -/
theorem C7_amended_theorem {heap : Heap} {venv : Nat → SlogVal} {fuel : Nat}
    {ty : GoTy} {es : VList} {st : St} {r : SlogVal} {st2 : St}
    (h : processSliceOrArray heap venv fuel (.sliceV ty es) st = .ok (r, st2)) :
    ∃ out, r = .anyV (.sliceV ty out) ∧ vlen out = vlen es ∧
      ∀ i e, vAt es i = some e →
        ∃ e2, vAt out i = some e2 ∧
          ∃ f1 s1 s2 rr t, processAny heap venv f1 e s1 = .ok (rr, s2) ∧
            reflectTypeOf (anyOut rr) = some t ∧
            e2 = (if t = ty then anyOut rr else e) := by
  cases fuel with
  | zero => simp [processSliceOrArray] at h
  | succ fuel =>
    simp only [processSliceOrArray] at h
    obtain ⟨⟨out, st1⟩, hes, hok⟩ := obind_eq_ok h
    cases hok
    obtain ⟨hlen, hslots⟩ := processElems_spec hes
    exact ⟨out, rfl, hlen, hslots⟩

/-- Witness for `C7_amended_theorem` on the slice `[]string{"Bob"}`. -/
theorem C7_amended_witness :
    (processSliceOrArray heap0 venv0 10 (.sliceV .strT (.cons (.strV "Bob") .nil))
        ⟨[], []⟩ =
      .ok (.anyV (.sliceV .strT (.cons (.strV "Bob") .nil)), ⟨[], []⟩)) ∧
    (∃ out, SlogVal.anyV (.sliceV .strT (.cons (.strV "Bob") .nil)) =
        .anyV (.sliceV .strT out) ∧
      vlen out = vlen (.cons (.strV "Bob") .nil) ∧
      ∀ i e, vAt (.cons (.strV "Bob") .nil) i = some e →
        ∃ e2, vAt out i = some e2 ∧
          ∃ f1 s1 s2 rr t, processAny heap0 venv0 f1 e s1 = .ok (rr, s2) ∧
            reflectTypeOf (anyOut rr) = some t ∧
            e2 = (if t = .strT then anyOut rr else e)) :=
  ⟨by decide,
    C7_amended_theorem
      (show processSliceOrArray heap0 venv0 10
          (.sliceV .strT (.cons (.strV "Bob") .nil)) ⟨[], []⟩ =
        .ok (.anyV (.sliceV .strT (.cons (.strV "Bob") .nil)), ⟨[], []⟩)
        by decide)⟩

/-! ## Claim C6 amended -/

theorem processAny_str {heap : Heap} {venv : Nat → SlogVal} {f : Nat} {s : String}
    {st : St} {p : SlogVal × St}
    (h : processAny heap venv f (.strV s) st = .ok p) : p = (.strVal s, st) := by
  obtain _ | _ | _ | f := f
  · simp [processAny] at h
  · simp [processAny, isLogValuer, derefLoop] at h
  · simp [processAny, isLogValuer, derefLoop, afterLoop] at h
  · simp only [processAny, isLogValuer, derefLoop, afterLoop, slogAnyValue,
      Out.ok.injEq] at h
    exact h.symm

theorem processFields_sig {heap : Heap} {venv : Nat → SlogVal} :
    ∀ {fuel : Nat} {fs : Fields} {st : St} {out : Fields} {st2 : St},
      processFields heap venv fuel fs st = .ok (out, st2) →
      fieldsSig out = fieldsSig fs := by
  intro fuel
  induction fuel with
  | zero => intro fs st out st2 h; simp [processFields] at h
  | succ fuel ih =>
    intro fs st out st2 h
    cases fs with
    | nil =>
      simp only [processFields, Out.ok.injEq, Prod.mk.injEq] at h
      obtain ⟨rfl, rfl⟩ := h
      rfl
    | cons n0 tag0 ex0 ty0 v0 rest =>
      cases ex0 with
      | false =>
        simp only [processFields, reduceIte] at h
        obtain ⟨⟨rs, st1⟩, hrest, hout⟩ := obind_eq_ok h
        cases hout
        simp [fieldsSig, ih hrest]
      | true =>
        by_cases htag : tag0 = ""
        · subst htag
          simp only [processFields, reduceIte, ne_eq, not_true_eq_false,
            if_false] at h
          obtain ⟨⟨r1, st1⟩, hone, h2⟩ := obind_eq_ok h
          cases hr : reflectTypeOf (anyOut r1) with
          | none => rw [hr] at h2; cases h2
          | some t =>
            rw [hr] at h2
            obtain ⟨⟨rs, st3⟩, hrest, hout⟩ := obind_eq_ok h2
            cases hout
            simp [fieldsSig, ih hrest]
        · simp only [processFields, htag, reduceIte, ne_eq,
            not_false_eq_true, if_true] at h
          obtain ⟨⟨rs, st1⟩, hrest, hout⟩ := obind_eq_ok h
          cases hout
          simp [fieldsSig, ih hrest]

theorem processAny_struct_sig {heap : Heap} {venv : Nat → SlogVal} {f : Nat}
    {fs : Fields} {st : St} {r : SlogVal} {st2 : St}
    (h : processAny heap venv f (.structV fs) st = .ok (r, st2)) :
    ∃ fs2, r = .anyV (.structV fs2) ∧ fieldsSig fs2 = fieldsSig fs := by
  obtain _ | _ | _ | _ | f := f
  · simp [processAny] at h
  · simp [processAny, isLogValuer, derefLoop] at h
  · simp [processAny, isLogValuer, derefLoop, afterLoop, processStruct] at h
  · simp [processAny, isLogValuer, derefLoop, afterLoop, processStruct] at h
  · simp only [processAny, isLogValuer, derefLoop, afterLoop, processStruct] at h
    obtain ⟨⟨out, st1⟩, hfs, hok⟩ := obind_eq_ok h
    cases hok
    exact ⟨out, rfl, processFields_sig hfs⟩

theorem keysOf_eq_map : (es : EList) → keysOf es = (entriesOf es).map Prod.fst
  | .nil => rfl
  | .cons k v rest => by simp [keysOf, entriesOf, keysOf_eq_map rest]

theorem entriesOf_length : (es : EList) → (entriesOf es).length = elen es
  | .nil => rfl
  | .cons k v rest => by simp [entriesOf, elen, entriesOf_length rest]

theorem entriesOf_upsert_of_not_mem :
    ∀ (acc : EList) (k v : GoVal), k ∉ keysOf acc →
      entriesOf (upsert acc k v) = entriesOf acc ++ [(k, v)]
  | .nil, k, v, _ => rfl
  | .cons k0 v0 rest, k, v, h => by
    simp only [keysOf, List.mem_cons, not_or] at h
    simp only [upsert, if_neg (fun hh : k0 = k => h.1 hh.symm), entriesOf,
      List.cons_append, List.cons.injEq, true_and]
    exact entriesOf_upsert_of_not_mem rest k v h.2

theorem processEntries_go {heap : Heap} {venv : Nat → SlogVal} {vt : GoTy} :
    ∀ {fuel : Nat} {es acc : EList} {st : St} {out : EList} {st2 : St},
      processEntries heap venv fuel .strT vt es acc st = .ok (out, st2) →
      (∀ p ∈ entriesOf es, (∃ s, p.1 = GoVal.strV s) ∧
          ∃ fs, p.2 = GoVal.structV fs ∧ GoTy.structT (fieldsSig fs) = vt) →
      (∀ k ∈ keysOf es, k ∉ keysOf acc) →
      (keysOf es).Nodup →
      ∃ processed, entriesOf out = entriesOf acc ++ processed ∧
        processed.length = elen es ∧
        ∀ (i : Nat) (k v : GoVal), (entriesOf es)[i]? = some (k, v) →
          ∃ v2 : GoVal, processed[i]? = some (k, v2) ∧
            ∃ f1 s1 s2 rr, processAny heap venv f1 v s1 = .ok (rr, s2) ∧
              anyOut rr = v2 ∧ reflectTypeOf v2 = some vt := by
  intro fuel
  induction fuel with
  | zero => intro es acc st out st2 h; simp [processEntries] at h
  | succ fuel ih =>
    intro es acc st out st2 h hent hdisj hnodup
    cases es with
    | nil =>
      simp only [processEntries, Out.ok.injEq, Prod.mk.injEq] at h
      obtain ⟨rfl, rfl⟩ := h
      exact ⟨[], by simp, rfl, fun i k v hf => by simp [entriesOf] at hf⟩
    | cons k v rest =>
      obtain ⟨⟨s, hks⟩, fs, hvs, hsig⟩ := hent (k, v) (by simp [entriesOf])
      simp only at hks hvs
      subst hks
      subst hvs
      simp only [processEntries] at h
      obtain ⟨⟨rk, st1⟩, hk, h2⟩ := obind_eq_ok h
      obtain ⟨⟨rv, st2'⟩, hv, h3⟩ := obind_eq_ok h2
      have hps := processAny_str hk
      simp only [Prod.mk.injEq] at hps
      obtain ⟨rfl, rfl⟩ := hps
      obtain ⟨fs2, rfl, hsig2⟩ := processAny_struct_sig hv
      simp only [anyOut, reflectTypeOf, hsig2, hsig, reduceIte, and_self,
        if_true] at h3
      have hknotin : GoVal.strV s ∉ keysOf acc := hdisj _ (by simp [keysOf])
      have hups := entriesOf_upsert_of_not_mem acc (.strV s) (.structV fs2)
        hknotin
      have hkeysacc : keysOf (upsert acc (.strV s) (.structV fs2)) =
          keysOf acc ++ [GoVal.strV s] := by
        rw [keysOf_eq_map, hups, List.map_append, ← keysOf_eq_map]; rfl
      simp only [keysOf, List.nodup_cons] at hnodup
      have hdisj2 : ∀ k2 ∈ keysOf rest,
          k2 ∉ keysOf (upsert acc (.strV s) (.structV fs2)) := by
        intro k2 hk2
        rw [hkeysacc]
        simp only [List.mem_append, List.mem_singleton, not_or]
        exact ⟨hdisj _ (by simp [keysOf, hk2]), fun hh => hnodup.1 (hh ▸ hk2)⟩
      obtain ⟨processed, hout, hplen, hslots⟩ := ih h3
        (fun p hp => hent p (by simp [entriesOf, hp]))
        hdisj2 hnodup.2
      refine ⟨(GoVal.strV s, GoVal.structV fs2) :: processed, ?_,
        by simp [hplen, elen], ?_⟩
      · rw [hout, hups]; simp
      · intro i k2 v2 hf
        cases i with
        | zero =>
          simp only [entriesOf, List.getElem?_cons_zero, Option.some.injEq,
            Prod.mk.injEq] at hf
          obtain ⟨rfl, rfl⟩ := hf
          exact ⟨.structV fs2, by simp, _, _, _, _, hv, rfl,
            by simp [reflectTypeOf, hsig2, hsig]⟩
        | succ i =>
          simp only [entriesOf, List.getElem?_cons_succ] at hf
          obtain ⟨v2', hp, hrest⟩ := hslots i k2 v2 hf
          exact ⟨v2', by simpa using hp, hrest⟩

/-- C6 (corrected, amended): entries are redacted key-then-value, and
the assignability test mirrors Go's short-circuiting `&&`: the redacted
key's `reflect.TypeOf` runs first — a nil-redacted key panics the call —
and only when the key is assignable is the redacted value's type taken.
So an assignable key with a nil-redacted value panics the whole call
(`C6_counterexample`, `map[string]*Nested{"a": nil}`), while a
non-assignable key drops the entry with the value's type never
inspected: `map[int]*Nested{5: nil}` completes with an empty map (third
conjunct; `slog.AnyValue` turns the `int` key into an `int64`).  For a
non-nil map with distinct string keys and struct-typed values matching
the map's value type, a completed call returns a fresh mapping whose key
list, order and size are unchanged and whose every value is the
redaction of the original value (first conjunct); a `map[string]int`
loses its entry to value-side assignability the same way (second
conjunct). -/
theorem C6_amended_theorem {heap : Heap} {venv : Nat → SlogVal} {fuel : Nat}
    {vt : GoTy} {es : EList} {st : St} {r : SlogVal} {st2 : St}
    (hmap : processMap heap venv fuel (.mapV .strT vt es) st = .ok (r, st2))
    (hent : ∀ p ∈ entriesOf es, (∃ s, p.1 = GoVal.strV s) ∧
        ∃ fs, p.2 = GoVal.structV fs ∧ GoTy.structT (fieldsSig fs) = vt)
    (hnodup : (keysOf es).Nodup) :
    (∃ out, r = .anyV (.mapV .strT vt out) ∧ keysOf out = keysOf es ∧
      elen out = elen es ∧
      ∀ (i : Nat) (k v : GoVal), (entriesOf es)[i]? = some (k, v) →
        ∃ v2 : GoVal, (entriesOf out)[i]? = some (k, v2) ∧
          ∃ f1 s1 s2 rr, processAny heap venv f1 v s1 = .ok (rr, s2) ∧
            anyOut rr = v2 ∧ reflectTypeOf v2 = some vt) ∧
    processAny heap0 venv0 10
        (.mapV .strT .intT (.cons (.strV "a") (.intV 1) .nil)) ⟨[], []⟩ =
      .ok (.anyV (.mapV .strT .intT .nil), ⟨[], []⟩) ∧
    processAny heap0 venv0 12
        (.mapV .intT (.ptrT nestedTy)
          (.cons (.intV 5) (.ptrV nestedTy none none) .nil)) ⟨[], []⟩ =
      .ok (.anyV (.mapV .intT (.ptrT nestedTy) .nil), ⟨[], []⟩) := by
  refine ⟨?_, by decide, by decide⟩
  cases fuel with
  | zero => simp [processMap] at hmap
  | succ fuel =>
    simp only [processMap] at hmap
    obtain ⟨⟨out, st1⟩, hes, hok⟩ := obind_eq_ok hmap
    cases hok
    obtain ⟨processed, hout, hplen, hslots⟩ := processEntries_go hes hent
      (fun k hk => by simp [keysOf]) hnodup
    simp only [entriesOf, List.nil_append] at hout
    have hlen2 : elen out = elen es := by
      rw [← entriesOf_length, hout, hplen]
    refine ⟨out, rfl, ?_, hlen2, fun i k v hf => by
      obtain ⟨v2, hp, hrest⟩ := hslots i k v hf
      exact ⟨v2, by rw [hout]; exact hp, hrest⟩⟩
    rw [keysOf_eq_map, hout, keysOf_eq_map]
    apply List.ext_getElem?
    intro i
    cases hkv : (entriesOf es)[i]? with
    | none =>
      have h2 : (entriesOf es).length ≤ i := by
        by_contra hc
        push_neg at hc
        rw [List.getElem?_eq_getElem hc] at hkv
        cases hkv
      have h1 : processed.length ≤ i := by
        rw [hplen, ← entriesOf_length]; exact h2
      simp [List.getElem?_map, List.getElem?_eq_none h1,
        List.getElem?_eq_none h2]
    | some p =>
      obtain ⟨k, v⟩ := p
      obtain ⟨v2, hp, _⟩ := hslots i k v hkv
      simp [List.getElem?_map, hp, hkv]

/-- Witness for `C6_amended_theorem` on `map[string]Nested{"a": nestedVal}`:
the call completes, the key set and size are unchanged, and the single
value is redacted. -/
theorem C6_amended_witness :
    (processMap heap0 venv0 30
        (.mapV .strT nestedTy (.cons (.strV "a") nestedVal .nil)) ⟨[], []⟩ =
      .ok (.anyV (.mapV .strT nestedTy (.cons (.strV "a") nestedRed .nil)),
        ⟨[], []⟩)) ∧
    ((∃ out,
        SlogVal.anyV (.mapV .strT nestedTy (.cons (.strV "a") nestedRed .nil)) =
          .anyV (.mapV .strT nestedTy out) ∧
        keysOf out = keysOf (.cons (.strV "a") nestedVal .nil) ∧
        elen out = elen (.cons (.strV "a") nestedVal .nil) ∧
        ∀ (i : Nat) (k v : GoVal),
          (entriesOf (.cons (.strV "a") nestedVal .nil))[i]? = some (k, v) →
          ∃ v2 : GoVal, (entriesOf out)[i]? = some (k, v2) ∧
            ∃ f1 s1 s2 rr, processAny heap0 venv0 f1 v s1 = .ok (rr, s2) ∧
              anyOut rr = v2 ∧ reflectTypeOf v2 = some nestedTy) ∧
      processAny heap0 venv0 10
          (.mapV .strT .intT (.cons (.strV "a") (.intV 1) .nil)) ⟨[], []⟩ =
        .ok (.anyV (.mapV .strT .intT .nil), ⟨[], []⟩) ∧
      processAny heap0 venv0 12
          (.mapV .intT (.ptrT nestedTy)
            (.cons (.intV 5) (.ptrV nestedTy none none) .nil)) ⟨[], []⟩ =
        .ok (.anyV (.mapV .intT (.ptrT nestedTy) .nil), ⟨[], []⟩)) :=
  ⟨by decide,
    C6_amended_theorem
      (show processMap heap0 venv0 30
          (.mapV .strT nestedTy (.cons (.strV "a") nestedVal .nil)) ⟨[], []⟩ =
        .ok (.anyV (.mapV .strT nestedTy (.cons (.strV "a") nestedRed .nil)),
          ⟨[], []⟩) by decide)
      (by
        intro p hp
        simp only [entriesOf, List.mem_singleton] at hp
        subst hp
        exact ⟨⟨"a", rfl⟩, _, rfl, by decide⟩)
      (by decide)⟩

/-! ## Claim C3 amended -/

/-- C3 (corrected, amended): (a) on every valuer-free value graph —
self-referential ones included — redaction terminates (some fuel level is
never exhausted); (b) at a reference whose identity is already in the
cycle tracker the walker returns the unredacted pointer itself, verbatim
(not `Null`), with the state untouched; (c) on first visit it records the
identity and recurses into the dereferenced value — the result is the
redacted pointee itself, **not** rewrapped as the same reference kind
(`C3_counterexample`; the rewrapping `processPointer` is unreachable). -/
theorem C3_amended_theorem (heap : Heap) (venv : Nat → SlogVal) :
    (∀ x st, heapValuerFree heap = true → valuerFreeV x = true →
      ∃ f, processAny heap venv f x st ≠ .hungry) ∧
    (∀ f ty a st, a ∈ st.visited →
      processAny heap venv (f + 2) (.ptrV ty (some a) none) st =
        .ok (.anyV (.ptrV ty (some a) none), st)) ∧
    (∀ f ty a st, a ∉ st.visited →
      processAny heap venv (f + 2) (.ptrV ty (some a) none) st =
        derefLoop heap venv f (heapGet heap a) ⟨a :: st.visited, st.gh⟩) := by
  refine ⟨?_, ?_, ?_⟩
  · intro x st hhf hvf
    exact (adequacyAll heap venv hhf (unvisited heap st.visited)
      (sizeOf x)).2.2.2.2.2.2.2.2 x st hvf (Nat.le_refl _) (Nat.le_refl _)
  · intro f ty a st hmem
    rw [processAny_succ]
    simp only [isLogValuer]
    rw [derefLoop_succ]
    simp [hmem, slogAnyValue]
  · intro f ty a st hmem
    rw [processAny_succ]
    simp only [isLogValuer]
    rw [derefLoop_succ]
    simp [hmem]

/-- Witness for `C3_amended_theorem` on the self-referential node at heap
address 0: the walk terminates, an already-visited reference passes
through verbatim, and a first visit marks the address and dereferences. -/
theorem C3_amended_witness :
    (∃ f, processAny heapCycle venv0 f (.ptrV .strT (some 0) none)
      ⟨[], []⟩ ≠ .hungry) ∧
    (processAny heapCycle venv0 (3 + 2) (.ptrV .strT (some 0) none)
        ⟨[0], []⟩ =
      .ok (.anyV (.ptrV .strT (some 0) none), ⟨[0], []⟩)) ∧
    (processAny heapCycle venv0 (3 + 2) (.ptrV .strT (some 0) none)
        ⟨[], []⟩ =
      derefLoop heapCycle venv0 3 (heapGet heapCycle 0) ⟨[0], []⟩) :=
  ⟨(C3_amended_theorem heapCycle venv0).1 (.ptrV .strT (some 0) none)
      ⟨[], []⟩ (by decide) (by decide),
    (C3_amended_theorem heapCycle venv0).2.1 3 .strT 0 ⟨[0], []⟩ (by decide),
    (C3_amended_theorem heapCycle venv0).2.2 3 .strT 0 ⟨[], []⟩ (by decide)⟩

/-! ## Idempotence machinery, part 1: on a reference- and valuer-free
value the walker never reads or writes the tracker state, so a run is the
same under every state -/

@[simp] theorem swapSt_ok {α : Type} (st2 : St) (r : α) (st : St) :
    swapSt st2 (.ok (r, st)) = .ok (r, st2) := rfl

@[simp] theorem swapSt_panicked {α : Type} (st2 : St) :
    swapSt (α := α) st2 .panicked = .panicked := rfl

@[simp] theorem swapSt_hungry {α : Type} (st2 : St) :
    swapSt (α := α) st2 .hungry = .hungry := rfl

/-- A reference/valuer-free value never passes the `slog.LogValuer`
type test. -/
theorem pvFree_isLogValuer {x : GoVal} (h : pvFreeV x = true) :
    isLogValuer x = none := by
  cases x <;> first | rfl | simp [pvFreeV] at h

theorem obind_swap {α β : Type} {o o2 : Out (α × St)}
    {k : α × St → Out (β × St)} {k2 : α × St → Out (β × St)} {st2 : St}
    (ho : o2 = swapSt st2 o)
    (hk : ∀ r st1, o = .ok (r, st1) → k2 (r, st2) = swapSt st2 (k (r, st1))) :
    obind o2 k2 = swapSt st2 (obind o k) := by
  cases o with
  | ok p =>
    obtain ⟨r, st1⟩ := p
    rw [ho]
    exact hk r st1 rfl
  | panicked => rw [ho]; rfl
  | hungry => rw [ho]; rfl

theorem stateIrrel (heap : Heap) (venv : Nat → SlogVal) :
    ∀ f : Nat,
      (∀ x st st2, pvFreeV x = true →
        processAny heap venv f x st2 = swapSt st2 (processAny heap venv f x st)) ∧
      (∀ x st st2, pvFreeV x = true →
        derefLoop heap venv f x st2 = swapSt st2 (derefLoop heap venv f x st)) ∧
      (∀ x st st2, pvFreeV x = true →
        afterLoop heap venv f x st2 = swapSt st2 (afterLoop heap venv f x st)) ∧
      (∀ fs st st2, pvFreeF fs = true →
        processStruct heap venv f fs st2 =
          swapSt st2 (processStruct heap venv f fs st)) ∧
      (∀ fs st st2, pvFreeF fs = true →
        processFields heap venv f fs st2 =
          swapSt st2 (processFields heap venv f fs st)) ∧
      (∀ x st st2, pvFreeV x = true →
        processSliceOrArray heap venv f x st2 =
          swapSt st2 (processSliceOrArray heap venv f x st)) ∧
      (∀ ty es st st2, pvFreeL es = true →
        processElems heap venv f ty es st2 =
          swapSt st2 (processElems heap venv f ty es st)) ∧
      (∀ x st st2, pvFreeV x = true →
        processMap heap venv f x st2 = swapSt st2 (processMap heap venv f x st)) ∧
      (∀ kt vt es acc st st2, pvFreeE es = true →
        processEntries heap venv f kt vt es acc st2 =
          swapSt st2 (processEntries heap venv f kt vt es acc st)) := by
  intro f
  induction f with
  | zero =>
    refine ⟨?_, ?_, ?_, ?_, ?_, ?_, ?_, ?_, ?_⟩ <;> intros <;> rfl
  | succ f ih =>
    obtain ⟨ihA, ihD, ihAf, ihS, ihF, ihSoA, ihE, ihM, ihEnt⟩ := ih
    refine ⟨?_, ?_, ?_, ?_, ?_, ?_, ?_, ?_, ?_⟩
    -- processAny
    · intro x st st2 hpv
      conv_lhs => rw [processAny_succ heap venv f x st2]
      conv_rhs => rw [processAny_succ heap venv f x st]
      cases x with
      | nilV => rfl
      | ptrV t a vid => simp [pvFreeV] at hpv
      | valuerV vid => simp [pvFreeV] at hpv
      | intV n => simp only [isLogValuer]; exact ihD _ _ _ hpv
      | int64V n => simp only [isLogValuer]; exact ihD _ _ _ hpv
      | strV s => simp only [isLogValuer]; exact ihD _ _ _ hpv
      | boolV b => simp only [isLogValuer]; exact ihD _ _ _ hpv
      | structV fs => simp only [isLogValuer]; exact ihD _ _ _ hpv
      | nilSliceV t => simp only [isLogValuer]; exact ihD _ _ _ hpv
      | sliceV t es => simp only [isLogValuer]; exact ihD _ _ _ hpv
      | arrayV t es => simp only [isLogValuer]; exact ihD _ _ _ hpv
      | nilMapV kt vt => simp only [isLogValuer]; exact ihD _ _ _ hpv
      | mapV kt vt es => simp only [isLogValuer]; exact ihD _ _ _ hpv
      | attrsOf g => simp only [isLogValuer]; exact ihD _ _ _ hpv
    -- derefLoop
    · intro x st st2 hpv
      conv_lhs => rw [derefLoop_succ heap venv f x st2]
      conv_rhs => rw [derefLoop_succ heap venv f x st]
      cases x with
      | ptrV t a vid => simp [pvFreeV] at hpv
      | valuerV vid => simp [pvFreeV] at hpv
      | nilV => exact ihAf _ _ _ hpv
      | intV n => exact ihAf _ _ _ hpv
      | int64V n => exact ihAf _ _ _ hpv
      | strV s => exact ihAf _ _ _ hpv
      | boolV b => exact ihAf _ _ _ hpv
      | structV fs => exact ihAf _ _ _ hpv
      | nilSliceV t => exact ihAf _ _ _ hpv
      | sliceV t es => exact ihAf _ _ _ hpv
      | arrayV t es => exact ihAf _ _ _ hpv
      | nilMapV kt vt => exact ihAf _ _ _ hpv
      | mapV kt vt es => exact ihAf _ _ _ hpv
      | attrsOf g => exact ihAf _ _ _ hpv
    -- afterLoop
    · intro x st st2 hpv
      conv_lhs => rw [afterLoop_succ heap venv f x st2]
      conv_rhs => rw [afterLoop_succ heap venv f x st]
      cases x with
      | structV fs => exact ihS _ _ _ (by simpa [pvFreeV] using hpv)
      | nilSliceV t => exact ihSoA _ _ _ hpv
      | sliceV t es => exact ihSoA _ _ _ hpv
      | arrayV t es => exact ihSoA _ _ _ hpv
      | nilMapV kt vt => exact ihM _ _ _ hpv
      | mapV kt vt es => exact ihM _ _ _ hpv
      | nilV => rfl
      | intV n => rfl
      | int64V n => rfl
      | strV s => rfl
      | boolV b => rfl
      | ptrV t a vid => rfl
      | valuerV vid => rfl
      | attrsOf g => rfl
    -- processStruct
    · intro fs st st2 hpv
      conv_lhs => rw [processStruct_succ heap venv f fs st2]
      conv_rhs => rw [processStruct_succ heap venv f fs st]
      exact obind_swap (ihF _ _ _ hpv) (fun rs st1 _ => rfl)
    -- processFields
    · intro fs st st2 hpv
      conv_lhs => rw [processFields_succ heap venv f fs st2]
      conv_rhs => rw [processFields_succ heap venv f fs st]
      cases fs with
      | nil => rfl
      | cons n tag ex ty v rest =>
        cases ex with
        | false =>
          have hrest : pvFreeF rest = true := by
            simp only [pvFreeF, Bool.and_eq_true] at hpv
            exact hpv.2
          simp only [reduceIte]
          exact obind_swap (ihF _ _ _ hrest) (fun rs st1 _ => rfl)
        | true =>
          have hpv' := hpv
          simp only [pvFreeF, Bool.and_eq_true] at hpv'
          by_cases htag : tag = ""
          · subst htag
            have hv : pvFreeV v = true := by simpa using hpv'.1
            simp only [reduceIte, ne_eq, not_true_eq_false, if_false]
            refine obind_swap (ihA _ _ _ hv) ?_
            intro r st1 _
            cases hrt : reflectTypeOf (anyOut r) with
            | none => simp only [hrt]; rfl
            | some t =>
              simp only [hrt]
              exact obind_swap (ihF _ _ _ hpv'.2) (fun rs st1' _ => rfl)
          · simp only [htag, reduceIte, ne_eq, not_false_eq_true, if_true]
            exact obind_swap (ihF _ _ _ hpv'.2) (fun rs st1 _ => rfl)
    -- processSliceOrArray
    · intro x st st2 hpv
      conv_lhs => rw [processSliceOrArray_succ heap venv f x st2]
      conv_rhs => rw [processSliceOrArray_succ heap venv f x st]
      cases x with
      | sliceV t es =>
        exact obind_swap (ihE _ _ _ _ (by simpa [pvFreeV] using hpv))
          (fun rs st1 _ => rfl)
      | nilSliceV t => rfl
      | arrayV t es => rfl
      | nilV => rfl
      | intV n => rfl
      | int64V n => rfl
      | strV s => rfl
      | boolV b => rfl
      | structV fs => rfl
      | nilMapV kt vt => rfl
      | mapV kt vt es => rfl
      | ptrV t a vid => rfl
      | valuerV vid => rfl
      | attrsOf g => rfl
    -- processElems
    · intro ty es st st2 hpv
      conv_lhs => rw [processElems_succ heap venv f ty es st2]
      conv_rhs => rw [processElems_succ heap venv f ty es st]
      cases es with
      | nil => rfl
      | cons e rest =>
        simp only [pvFreeL, Bool.and_eq_true] at hpv
        refine obind_swap (ihA _ _ _ hpv.1) ?_
        intro r st1 _
        cases hrt : reflectTypeOf (anyOut r) with
        | none => simp only [hrt]; rfl
        | some t =>
          simp only [hrt]
          exact obind_swap (ihE _ _ _ _ hpv.2) (fun rs st1' _ => rfl)
    -- processMap
    · intro x st st2 hpv
      conv_lhs => rw [processMap_succ heap venv f x st2]
      conv_rhs => rw [processMap_succ heap venv f x st]
      cases x with
      | mapV kt vt es =>
        exact obind_swap (ihEnt _ _ _ _ _ _ (by simpa [pvFreeV] using hpv))
          (fun rs st1 _ => rfl)
      | nilMapV kt vt => rfl
      | nilV => rfl
      | intV n => rfl
      | int64V n => rfl
      | strV s => rfl
      | boolV b => rfl
      | structV fs => rfl
      | nilSliceV t => rfl
      | sliceV t es => rfl
      | arrayV t es => rfl
      | ptrV t a vid => rfl
      | valuerV vid => rfl
      | attrsOf g => rfl
    -- processEntries
    · intro kt vt es acc st st2 hpv
      conv_lhs => rw [processEntries_succ heap venv f kt vt es acc st2]
      conv_rhs => rw [processEntries_succ heap venv f kt vt es acc st]
      cases es with
      | nil => rfl
      | cons k v rest =>
        simp only [pvFreeE, Bool.and_eq_true] at hpv
        refine obind_swap (ihA _ _ _ hpv.1.1) ?_
        intro rk st1 _
        refine obind_swap (ihA _ _ _ hpv.1.2) ?_
        intro rv stv _
        cases hrt : reflectTypeOf (anyOut rk) with
        | none => simp only [hrt]; rfl
        | some tk =>
          simp only [hrt]
          by_cases htk : tk = kt
          · simp only [if_pos htk]
            cases hrt2 : reflectTypeOf (anyOut rv) with
            | none => simp only [hrt2]; rfl
            | some tv =>
              simp only [hrt2]
              exact ihEnt _ _ _ _ _ _ hpv.2
          · simp only [if_neg htk]
            exact ihEnt _ _ _ _ _ _ hpv.2

/-- State preservation: a completed run on a reference/valuer-free value
hands the tracker state back unchanged. -/
theorem processAny_state_pres {heap : Heap} {venv : Nat → SlogVal} {f : Nat}
    {x : GoVal} {st st' : St} {r : SlogVal}
    (hpv : pvFreeV x = true)
    (h : processAny heap venv f x st = .ok (r, st')) : st' = st := by
  have hirr := (stateIrrel heap venv f).1 x st st hpv
  rw [h] at hirr
  simpa using hirr

/-- State independence: a completed run on a reference/valuer-free value
completes identically (same fuel, same result) from any state. -/
theorem processAny_state_indep {heap : Heap} {venv : Nat → SlogVal} {f : Nat}
    {x : GoVal} {st st' : St} {r : SlogVal}
    (hpv : pvFreeV x = true)
    (h : processAny heap venv f x st = .ok (r, st')) :
    ∀ st2, processAny heap venv f x st2 = .ok (r, st2) := by
  intro st2
  have hirr := (stateIrrel heap venv f).1 x st st2 hpv
  rw [h] at hirr
  simpa using hirr

/-! ## Idempotence machinery, part 2: rebuilding a redacted map.  The
entries `processMap` inserts all redact to themselves, have distinct
keys, and are assignable, so folding `processEntries` over the rebuilt
map re-inserts exactly the same entries in the same order. -/

theorem eappend_nil : ∀ es : EList, eappend es .nil = es
  | .nil => rfl
  | .cons k v rest => by simp only [eappend, eappend_nil rest]

theorem eappend_assoc : ∀ a b c : EList,
    eappend (eappend a b) c = eappend a (eappend b c)
  | .nil, _, _ => rfl
  | .cons k v rest, b, c => by simp only [eappend, eappend_assoc rest]

theorem keysOf_eappend : ∀ a b : EList,
    keysOf (eappend a b) = keysOf a ++ keysOf b
  | .nil, _ => rfl
  | .cons k v rest, b => by
    simp only [eappend, keysOf, keysOf_eappend rest, List.cons_append]

/-- `SetMapIndex` with a fresh key appends the entry. -/
theorem upsert_not_mem : ∀ (acc : EList) (k v : GoVal), k ∉ keysOf acc →
    upsert acc k v = eappend acc (.cons k v .nil)
  | .nil, _, _, _ => rfl
  | .cons k0 v0 rest, k, v, h => by
    simp only [keysOf, List.mem_cons, not_or] at h
    have hne : ¬(k0 = k) := fun hh => h.1 hh.symm
    show (if k0 = k then EList.cons k v rest
        else .cons k0 v0 (upsert rest k v)) =
      .cons k0 v0 (eappend rest (.cons k v .nil))
    rw [if_neg hne, upsert_not_mem rest k v h.2]

theorem keysOf_upsert : ∀ (acc : EList) (k v : GoVal),
    keysOf (upsert acc k v) =
      if k ∈ keysOf acc then keysOf acc else keysOf acc ++ [k]
  | .nil, k, v => by simp [upsert, keysOf]
  | .cons k0 v0 rest, k, v => by
    show keysOf (if k0 = k then EList.cons k v rest
        else .cons k0 v0 (upsert rest k v)) = _
    by_cases h : k0 = k
    · subst h
      simp [keysOf]
    · have hkk0 : ¬(k = k0) := fun hh => h hh.symm
      rw [if_neg h]
      by_cases h2 : k ∈ keysOf rest
      · simp [keysOf, keysOf_upsert rest k v, h2, hkk0]
      · simp [keysOf, keysOf_upsert rest k v, h2, hkk0]

theorem keysOf_upsert_nodup {acc : EList} {k v : GoVal}
    (h : (keysOf acc).Nodup) : (keysOf (upsert acc k v)).Nodup := by
  rw [keysOf_upsert]
  by_cases h2 : k ∈ keysOf acc
  · rwa [if_pos h2]
  · rw [if_neg h2]
    exact List.Nodup.append h (List.nodup_singleton k)
      (fun b hb hb2 => h2 (List.mem_singleton.1 hb2 ▸ hb))

theorem reproE_upsert {heap : Heap} {venv : Nat → SlogVal} {kt vt : GoTy}
    {k v : GoVal} (hk : Repro heap venv kt k) (hv : Repro heap venv vt v) :
    ∀ acc : EList, ReproE heap venv kt vt acc →
      ReproE heap venv kt vt (upsert acc k v)
  | .nil, _ => ⟨hk, hv, trivial⟩
  | .cons k0 v0 rest, h => by
    obtain ⟨h0k, h0v, hrest⟩ := h
    show ReproE heap venv kt vt (if k0 = k then EList.cons k v rest
      else .cons k0 v0 (upsert rest k v))
    by_cases hh : k0 = k
    · rw [if_pos hh]; exact ⟨hk, hv, hrest⟩
    · rw [if_neg hh]; exact ⟨h0k, h0v, reproE_upsert hk hv rest hrest⟩

/-- Folding `processEntries` over a self-redacting, distinct-keyed entry
list appends every entry to the accumulator unchanged. -/
theorem rebuildEntries {heap : Heap} {venv : Nat → SlogVal} {kt vt : GoTy} :
    ∀ (es acc : EList) (st2 : St),
      ReproE heap venv kt vt es → (keysOf es).Nodup →
      (∀ x ∈ keysOf es, x ∉ keysOf acc) →
      ∃ f2, processEntries heap venv f2 kt vt es acc st2 =
        .ok (eappend acc es, st2)
  | .nil, acc, st2, _, _, _ => ⟨1, by rw [eappend_nil]; rfl⟩
  | .cons k v rest, acc, st2, hrep, hnodup, hfresh => by
    obtain ⟨⟨htyk, rk, hrkEq, hrkAll⟩, ⟨htyv, rv, hrvEq, hrvAll⟩, hrest⟩ := hrep
    obtain ⟨fk, hfk⟩ := hrkAll st2
    obtain ⟨fv, hfv⟩ := hrvAll st2
    simp only [keysOf, List.nodup_cons] at hnodup
    have hkfresh : k ∉ keysOf acc := hfresh k (by simp [keysOf])
    have hfresh2 : ∀ x ∈ keysOf rest,
        x ∉ keysOf (eappend acc (.cons k v .nil)) := by
      intro x hx
      rw [keysOf_eappend]
      simp only [List.mem_append, keysOf, List.mem_cons, List.not_mem_nil,
        or_false, not_or]
      exact ⟨hfresh x (by simp [keysOf, hx]), fun hh => hnodup.1 (hh ▸ hx)⟩
    obtain ⟨fr, hfr⟩ := rebuildEntries rest (eappend acc (.cons k v .nil)) st2
      hrest hnodup.2 hfresh2
    refine ⟨max fk (max fv fr) + 1, ?_⟩
    have h1 : processAny heap venv (max fk (max fv fr)) k st2 = .ok (rk, st2) := by
      rw [processAny_mono_le heap venv (le_max_left _ _) (by rw [hfk]; simp), hfk]
    have h2 : processAny heap venv (max fk (max fv fr)) v st2 = .ok (rv, st2) := by
      rw [processAny_mono_le heap venv
        (le_trans (le_max_left _ _) (le_max_right _ _)) (by rw [hfv]; simp), hfv]
    simp only [processEntries, h1, obind_ok, h2, hrkEq, hrvEq, htyk, htyv,
      and_self, reduceIte]
    rw [upsert_not_mem acc k v hkfresh,
      processEntries_mono_le heap venv
        (le_trans (le_max_right _ _) (le_max_right _ _)) (by rw [hfr]; simp),
      hfr, eappend_assoc]
    rfl

/-! ## Idempotence machinery, part 3: container unfoldings at explicit
fuel, and stability of leaf results -/

theorem processAny_struct_unfold (heap : Heap) (venv : Nat → SlogVal) (f : Nat)
    (fs : Fields) (st : St) :
    processAny heap venv (f + 1 + 1 + 1 + 1) (.structV fs) st =
      obind (processFields heap venv f fs st) fun (fs2, st1) =>
        .ok (.anyV (.structV fs2), st1) := rfl

theorem processAny_slice_unfold (heap : Heap) (venv : Nat → SlogVal) (f : Nat)
    (t : GoTy) (es : VList) (st : St) :
    processAny heap venv (f + 1 + 1 + 1 + 1) (.sliceV t es) st =
      obind (processElems heap venv f t es st) fun (es2, st1) =>
        .ok (.anyV (.sliceV t es2), st1) := rfl

theorem processAny_map_unfold (heap : Heap) (venv : Nat → SlogVal) (f : Nat)
    (kt vt : GoTy) (es : EList) (st : St) :
    processAny heap venv (f + 1 + 1 + 1 + 1) (.mapV kt vt es) st =
      obind (processEntries heap venv f kt vt es .nil st) fun (es2, st1) =>
        .ok (.anyV (.mapV kt vt es2), st1) := rfl

/-- Lift `processAny`-level stability to the `processValue` level, for an
`anyV` result whose payload is not a valuer. -/
theorem reval_of_reany {heap : Heap} {venv : Nat → SlogVal} {y : GoVal}
    (hy : isLogValuer y = none) (h : ReAny heap venv (.anyV y)) :
    ReVal heap venv (.anyV y) := by
  intro st2
  obtain ⟨f2, hf⟩ := h st2
  refine ⟨f2 + 1, ?_⟩
  rw [processValue_succ]
  simp only [hy]
  exact hf

/-! ## Idempotence machinery, part 4: the fixpoint theorem.  Whatever a
completed walk on a reference/valuer-free value returns redacts to
itself: re-running the walker on the result reproduces it exactly, under
any state.  Replaced slots reproduce because redaction already
normalized them; kept slots reproduce because their redaction is
deterministic and state-independent, so the type mismatch that kept them
recurs. -/

theorem refix (heap : Heap) (venv : Nat → SlogVal) :
    ∀ f : Nat,
      (∀ x st r st', processAny heap venv f x st = .ok (r, st') →
        pvFreeV x = true → ReAny heap venv r ∧ ReVal heap venv r) ∧
      (∀ x st r st', derefLoop heap venv f x st = .ok (r, st') →
        pvFreeV x = true → ReAny heap venv r ∧ ReVal heap venv r) ∧
      (∀ x st r st', afterLoop heap venv f x st = .ok (r, st') →
        pvFreeV x = true → ReAny heap venv r ∧ ReVal heap venv r) ∧
      (∀ fs st r st', processStruct heap venv f fs st = .ok (r, st') →
        pvFreeF fs = true → ReAny heap venv r ∧ ReVal heap venv r) ∧
      (∀ fs st fs2 st', processFields heap venv f fs st = .ok (fs2, st') →
        pvFreeF fs = true →
        ∀ st2, ∃ f2, processFields heap venv f2 fs2 st2 = .ok (fs2, st2)) ∧
      (∀ x st r st', processSliceOrArray heap venv f x st = .ok (r, st') →
        pvFreeV x = true → ReAny heap venv r ∧ ReVal heap venv r) ∧
      (∀ ty es st es2 st', processElems heap venv f ty es st = .ok (es2, st') →
        pvFreeL es = true →
        ∀ st2, ∃ f2, processElems heap venv f2 ty es2 st2 = .ok (es2, st2)) ∧
      (∀ x st r st', processMap heap venv f x st = .ok (r, st') →
        pvFreeV x = true → ReAny heap venv r ∧ ReVal heap venv r) ∧
      (∀ kt vt es acc st out st',
        processEntries heap venv f kt vt es acc st = .ok (out, st') →
        pvFreeE es = true → ReproE heap venv kt vt acc → (keysOf acc).Nodup →
        ReproE heap venv kt vt out ∧ (keysOf out).Nodup) := by
  intro f
  induction f with
  | zero =>
    refine ⟨?_, ?_, ?_, ?_, ?_, ?_, ?_, ?_, ?_⟩
    · intro x st r st' h _; exact Out.noConfusion h
    · intro x st r st' h _; exact Out.noConfusion h
    · intro x st r st' h _; exact Out.noConfusion h
    · intro fs st r st' h _; exact Out.noConfusion h
    · intro fs st fs2 st' h _; exact Out.noConfusion h
    · intro x st r st' h _; exact Out.noConfusion h
    · intro ty es st es2 st' h _; exact Out.noConfusion h
    · intro x st r st' h _; exact Out.noConfusion h
    · intro kt vt es acc st out st' h _ _ _; exact Out.noConfusion h
  | succ f ih =>
    obtain ⟨ihA, ihD, ihAf, ihS, ihF, ihSoA, ihE, ihM, ihEnt⟩ := ih
    refine ⟨?_, ?_, ?_, ?_, ?_, ?_, ?_, ?_, ?_⟩
    -- processAny
    · intro x st r st' h hpv
      cases x with
      | nilV =>
        simp only [processAny, Out.ok.injEq, Prod.mk.injEq] at h
        obtain ⟨rfl, rfl⟩ := h
        exact ⟨fun st2 => ⟨1, rfl⟩, fun st2 => ⟨2, rfl⟩⟩
      | ptrV t a vid => simp [pvFreeV] at hpv
      | valuerV vid => simp [pvFreeV] at hpv
      | intV n => simp only [processAny, isLogValuer] at h; exact ihD _ _ _ _ h hpv
      | int64V n => simp only [processAny, isLogValuer] at h; exact ihD _ _ _ _ h hpv
      | strV s => simp only [processAny, isLogValuer] at h; exact ihD _ _ _ _ h hpv
      | boolV b => simp only [processAny, isLogValuer] at h; exact ihD _ _ _ _ h hpv
      | structV fs => simp only [processAny, isLogValuer] at h; exact ihD _ _ _ _ h hpv
      | nilSliceV t => simp only [processAny, isLogValuer] at h; exact ihD _ _ _ _ h hpv
      | sliceV t es => simp only [processAny, isLogValuer] at h; exact ihD _ _ _ _ h hpv
      | arrayV t es => simp only [processAny, isLogValuer] at h; exact ihD _ _ _ _ h hpv
      | nilMapV kt vt => simp only [processAny, isLogValuer] at h; exact ihD _ _ _ _ h hpv
      | mapV kt vt es => simp only [processAny, isLogValuer] at h; exact ihD _ _ _ _ h hpv
      | attrsOf g => simp only [processAny, isLogValuer] at h; exact ihD _ _ _ _ h hpv
    -- derefLoop
    · intro x st r st' h hpv
      cases x with
      | ptrV t a vid => simp [pvFreeV] at hpv
      | valuerV vid => simp [pvFreeV] at hpv
      | nilV => simp only [derefLoop] at h; exact ihAf _ _ _ _ h hpv
      | intV n => simp only [derefLoop] at h; exact ihAf _ _ _ _ h hpv
      | int64V n => simp only [derefLoop] at h; exact ihAf _ _ _ _ h hpv
      | strV s => simp only [derefLoop] at h; exact ihAf _ _ _ _ h hpv
      | boolV b => simp only [derefLoop] at h; exact ihAf _ _ _ _ h hpv
      | structV fs => simp only [derefLoop] at h; exact ihAf _ _ _ _ h hpv
      | nilSliceV t => simp only [derefLoop] at h; exact ihAf _ _ _ _ h hpv
      | sliceV t es => simp only [derefLoop] at h; exact ihAf _ _ _ _ h hpv
      | arrayV t es => simp only [derefLoop] at h; exact ihAf _ _ _ _ h hpv
      | nilMapV kt vt => simp only [derefLoop] at h; exact ihAf _ _ _ _ h hpv
      | mapV kt vt es => simp only [derefLoop] at h; exact ihAf _ _ _ _ h hpv
      | attrsOf g => simp only [derefLoop] at h; exact ihAf _ _ _ _ h hpv
    -- afterLoop
    · intro x st r st' h hpv
      cases x with
      | structV fs =>
        simp only [afterLoop] at h
        exact ihS _ _ _ _ h (by simpa [pvFreeV] using hpv)
      | nilSliceV t => simp only [afterLoop] at h; exact ihSoA _ _ _ _ h hpv
      | sliceV t es => simp only [afterLoop] at h; exact ihSoA _ _ _ _ h hpv
      | arrayV t es => simp only [afterLoop] at h; exact ihSoA _ _ _ _ h hpv
      | nilMapV kt vt => simp only [afterLoop] at h; exact ihM _ _ _ _ h hpv
      | mapV kt vt es => simp only [afterLoop] at h; exact ihM _ _ _ _ h hpv
      | nilV =>
        simp only [afterLoop, slogAnyValue, Out.ok.injEq, Prod.mk.injEq] at h
        obtain ⟨rfl, rfl⟩ := h
        exact ⟨fun st2 => ⟨1, rfl⟩, fun st2 => ⟨2, rfl⟩⟩
      | intV n =>
        simp only [afterLoop, slogAnyValue, Out.ok.injEq, Prod.mk.injEq] at h
        obtain ⟨rfl, rfl⟩ := h
        exact ⟨fun st2 => ⟨3, rfl⟩, fun st2 => ⟨1, rfl⟩⟩
      | int64V n =>
        simp only [afterLoop, slogAnyValue, Out.ok.injEq, Prod.mk.injEq] at h
        obtain ⟨rfl, rfl⟩ := h
        exact ⟨fun st2 => ⟨3, rfl⟩, fun st2 => ⟨1, rfl⟩⟩
      | strV s =>
        simp only [afterLoop, slogAnyValue, Out.ok.injEq, Prod.mk.injEq] at h
        obtain ⟨rfl, rfl⟩ := h
        exact ⟨fun st2 => ⟨3, rfl⟩, fun st2 => ⟨1, rfl⟩⟩
      | boolV b =>
        simp only [afterLoop, slogAnyValue, Out.ok.injEq, Prod.mk.injEq] at h
        obtain ⟨rfl, rfl⟩ := h
        exact ⟨fun st2 => ⟨3, rfl⟩, fun st2 => ⟨1, rfl⟩⟩
      | attrsOf g =>
        simp only [afterLoop, slogAnyValue, Out.ok.injEq, Prod.mk.injEq] at h
        obtain ⟨rfl, rfl⟩ := h
        exact ⟨fun st2 => ⟨3, rfl⟩, fun st2 => ⟨4, rfl⟩⟩
      | ptrV t a vid => simp [pvFreeV] at hpv
      | valuerV vid => simp [pvFreeV] at hpv
    -- processStruct
    · intro fs st r st' h hpv
      simp only [processStruct] at h
      obtain ⟨⟨fs2, st1⟩, hF, hok⟩ := obind_eq_ok h
      simp only [Out.ok.injEq, Prod.mk.injEq] at hok
      obtain ⟨rfl, rfl⟩ := hok
      have hfix := ihF _ _ _ _ hF hpv
      have hre : ReAny heap venv (.anyV (.structV fs2)) := by
        intro st2
        obtain ⟨f2, hf2⟩ := hfix st2
        refine ⟨f2 + 1 + 1 + 1 + 1, ?_⟩
        show processAny heap venv (f2 + 1 + 1 + 1 + 1) (.structV fs2) st2 =
          .ok (.anyV (.structV fs2), st2)
        rw [processAny_struct_unfold, hf2]
        rfl
      exact ⟨hre, reval_of_reany rfl hre⟩
    -- processFields
    · intro fs st fs2 st' h hpv
      cases fs with
      | nil =>
        simp only [processFields, Out.ok.injEq, Prod.mk.injEq] at h
        obtain ⟨rfl, rfl⟩ := h
        exact fun st2 => ⟨1, rfl⟩
      | cons n tag ex ty v rest =>
        simp only [pvFreeF, Bool.and_eq_true] at hpv
        cases ex with
        | false =>
          simp only [processFields, reduceIte] at h
          obtain ⟨⟨rs, st1⟩, hrest, hok⟩ := obind_eq_ok h
          simp only [Out.ok.injEq, Prod.mk.injEq] at hok
          obtain ⟨rfl, rfl⟩ := hok
          intro st2
          obtain ⟨fF, hfF⟩ := ihF _ _ _ _ hrest hpv.2 st2
          refine ⟨fF + 1, ?_⟩
          simp only [processFields, reduceIte, hfF, obind_ok]
        | true =>
          by_cases htag : tag = ""
          · subst htag
            have hv : pvFreeV v = true := by simpa using hpv.1
            simp only [processFields, reduceIte, ne_eq, not_true_eq_false,
              if_false] at h
            obtain ⟨⟨r1, st1⟩, hany, h2⟩ := obind_eq_ok h
            cases hrt : reflectTypeOf (anyOut r1) with
            | none => rw [hrt] at h2; exact Out.noConfusion h2
            | some t =>
              rw [hrt] at h2
              obtain ⟨⟨rs, st2x⟩, hrest, hok⟩ := obind_eq_ok h2
              simp only [Out.ok.injEq, Prod.mk.injEq] at hok
              obtain ⟨rfl, rfl⟩ := hok
              intro st2
              obtain ⟨fF, hfF⟩ := ihF _ _ _ _ hrest hpv.2 st2
              by_cases hty : t = ty
              · obtain ⟨fA, hfA⟩ := (ihA _ _ _ _ hany hv).1 st2
                refine ⟨max fA fF + 1, ?_⟩
                rw [if_pos hty]
                have hA2 : processAny heap venv (max fA fF) (anyOut r1) st2 =
                    .ok (r1, st2) := by
                  rw [processAny_mono_le heap venv (le_max_left _ _)
                    (by rw [hfA]; simp), hfA]
                have hF2 : processFields heap venv (max fA fF) rs st2 =
                    .ok (rs, st2) := by
                  rw [processFields_mono_le heap venv (le_max_right _ _)
                    (by rw [hfF]; simp), hfF]
                simp only [processFields, reduceIte, ne_eq, not_true_eq_false,
                  if_false, hA2, obind_ok, hrt, hF2, ite_self]
              · have hst := processAny_state_indep hv hany st2
                refine ⟨max f fF + 1, ?_⟩
                rw [if_neg hty]
                have hA2 : processAny heap venv (max f fF) v st2 =
                    .ok (r1, st2) := by
                  rw [processAny_mono_le heap venv (le_max_left _ _)
                    (by rw [hst]; simp), hst]
                have hF2 : processFields heap venv (max f fF) rs st2 =
                    .ok (rs, st2) := by
                  rw [processFields_mono_le heap venv (le_max_right _ _)
                    (by rw [hfF]; simp), hfF]
                simp only [processFields, reduceIte, ne_eq, not_true_eq_false,
                  if_false, hA2, obind_ok, hrt, hF2, if_neg hty, ite_self]
          · simp only [processFields, htag, reduceIte, ne_eq,
              not_false_eq_true, if_true] at h
            obtain ⟨⟨rs, st1⟩, hrest, hok⟩ := obind_eq_ok h
            simp only [Out.ok.injEq, Prod.mk.injEq] at hok
            obtain ⟨rfl, rfl⟩ := hok
            intro st2
            obtain ⟨fF, hfF⟩ := ihF _ _ _ _ hrest hpv.2 st2
            refine ⟨fF + 1, ?_⟩
            simp only [processFields, htag, reduceIte, ne_eq,
              not_false_eq_true, if_true, hfF, obind_ok, ite_self]
    -- processSliceOrArray
    · intro x st r st' h hpv
      cases x with
      | sliceV t es =>
        simp only [processSliceOrArray] at h
        obtain ⟨⟨es2, st1⟩, hE, hok⟩ := obind_eq_ok h
        simp only [Out.ok.injEq, Prod.mk.injEq] at hok
        obtain ⟨rfl, rfl⟩ := hok
        have hfix := ihE _ _ _ _ _ hE (by simpa [pvFreeV] using hpv)
        have hre : ReAny heap venv (.anyV (.sliceV t es2)) := by
          intro st2
          obtain ⟨f2, hf2⟩ := hfix st2
          refine ⟨f2 + 1 + 1 + 1 + 1, ?_⟩
          show processAny heap venv (f2 + 1 + 1 + 1 + 1) (.sliceV t es2) st2 =
            .ok (.anyV (.sliceV t es2), st2)
          rw [processAny_slice_unfold, hf2]
          rfl
        exact ⟨hre, reval_of_reany rfl hre⟩
      | nilSliceV t =>
        simp only [processSliceOrArray, Out.ok.injEq, Prod.mk.injEq] at h
        obtain ⟨rfl, rfl⟩ := h
        exact ⟨fun st2 => ⟨1, rfl⟩, fun st2 => ⟨2, rfl⟩⟩
      | arrayV t es => simp [processSliceOrArray] at h
      | nilV => simp [processSliceOrArray] at h
      | intV n => simp [processSliceOrArray] at h
      | int64V n => simp [processSliceOrArray] at h
      | strV s => simp [processSliceOrArray] at h
      | boolV b => simp [processSliceOrArray] at h
      | structV fs => simp [processSliceOrArray] at h
      | nilMapV kt vt => simp [processSliceOrArray] at h
      | mapV kt vt es => simp [processSliceOrArray] at h
      | ptrV t a vid => simp [processSliceOrArray] at h
      | valuerV vid => simp [processSliceOrArray] at h
      | attrsOf g => simp [processSliceOrArray] at h
    -- processElems
    · intro ty es st es2 st' h hpv
      cases es with
      | nil =>
        simp only [processElems, Out.ok.injEq, Prod.mk.injEq] at h
        obtain ⟨rfl, rfl⟩ := h
        exact fun st2 => ⟨1, rfl⟩
      | cons e rest =>
        simp only [pvFreeL, Bool.and_eq_true] at hpv
        simp only [processElems] at h
        obtain ⟨⟨r1, st1⟩, hany, h2⟩ := obind_eq_ok h
        cases hrt : reflectTypeOf (anyOut r1) with
        | none => rw [hrt] at h2; exact Out.noConfusion h2
        | some t =>
          rw [hrt] at h2
          obtain ⟨⟨rs, st2x⟩, hrest, hok⟩ := obind_eq_ok h2
          simp only [Out.ok.injEq, Prod.mk.injEq] at hok
          obtain ⟨rfl, rfl⟩ := hok
          intro st2
          obtain ⟨fE, hfE⟩ := ihE _ _ _ _ _ hrest hpv.2 st2
          by_cases hty : t = ty
          · obtain ⟨fA, hfA⟩ := (ihA _ _ _ _ hany hpv.1).1 st2
            refine ⟨max fA fE + 1, ?_⟩
            rw [if_pos hty]
            have hA2 : processAny heap venv (max fA fE) (anyOut r1) st2 =
                .ok (r1, st2) := by
              rw [processAny_mono_le heap venv (le_max_left _ _)
                (by rw [hfA]; simp), hfA]
            have hE2 : processElems heap venv (max fA fE) ty rs st2 =
                .ok (rs, st2) := by
              rw [processElems_mono_le heap venv (le_max_right _ _)
                (by rw [hfE]; simp), hfE]
            simp only [processElems, hA2, obind_ok, hrt, hE2, ite_self]
          · have hst := processAny_state_indep hpv.1 hany st2
            refine ⟨max f fE + 1, ?_⟩
            rw [if_neg hty]
            have hA2 : processAny heap venv (max f fE) e st2 =
                .ok (r1, st2) := by
              rw [processAny_mono_le heap venv (le_max_left _ _)
                (by rw [hst]; simp), hst]
            have hE2 : processElems heap venv (max f fE) ty rs st2 =
                .ok (rs, st2) := by
              rw [processElems_mono_le heap venv (le_max_right _ _)
                (by rw [hfE]; simp), hfE]
            simp only [processElems, hA2, obind_ok, hrt, hE2, if_neg hty]
    -- processMap
    · intro x st r st' h hpv
      cases x with
      | mapV kt vt es =>
        simp only [processMap] at h
        obtain ⟨⟨es2, st1⟩, hEn, hok⟩ := obind_eq_ok h
        simp only [Out.ok.injEq, Prod.mk.injEq] at hok
        obtain ⟨rfl, rfl⟩ := hok
        obtain ⟨hrep, hnd⟩ := ihEnt _ _ _ _ _ _ _ hEn
          (by simpa [pvFreeV] using hpv) trivial List.nodup_nil
        have hre : ReAny heap venv (.anyV (.mapV kt vt es2)) := by
          intro st2
          obtain ⟨f2, hf2⟩ := rebuildEntries es2 .nil st2 hrep hnd
            (fun x hx => by simp [keysOf])
          refine ⟨f2 + 1 + 1 + 1 + 1, ?_⟩
          show processAny heap venv (f2 + 1 + 1 + 1 + 1) (.mapV kt vt es2) st2 =
            .ok (.anyV (.mapV kt vt es2), st2)
          rw [processAny_map_unfold, hf2]
          rfl
        exact ⟨hre, reval_of_reany rfl hre⟩
      | nilMapV kt vt =>
        simp only [processMap, Out.ok.injEq, Prod.mk.injEq] at h
        obtain ⟨rfl, rfl⟩ := h
        exact ⟨fun st2 => ⟨1, rfl⟩, fun st2 => ⟨2, rfl⟩⟩
      | nilV => simp [processMap] at h
      | intV n => simp [processMap] at h
      | int64V n => simp [processMap] at h
      | strV s => simp [processMap] at h
      | boolV b => simp [processMap] at h
      | structV fs => simp [processMap] at h
      | nilSliceV t => simp [processMap] at h
      | sliceV t es => simp [processMap] at h
      | arrayV t es => simp [processMap] at h
      | ptrV t a vid => simp [processMap] at h
      | valuerV vid => simp [processMap] at h
      | attrsOf g => simp [processMap] at h
    -- processEntries
    · intro kt vt es acc st out st' h hpv hrep hnd
      cases es with
      | nil =>
        simp only [processEntries, Out.ok.injEq, Prod.mk.injEq] at h
        obtain ⟨rfl, rfl⟩ := h
        exact ⟨hrep, hnd⟩
      | cons k v rest =>
        simp only [pvFreeE, Bool.and_eq_true] at hpv
        simp only [processEntries] at h
        obtain ⟨⟨rk, st1⟩, hk, h2⟩ := obind_eq_ok h
        obtain ⟨⟨rv, st2x⟩, hv2, h3⟩ := obind_eq_ok h2
        cases hrtk : reflectTypeOf (anyOut rk) with
        | none => rw [hrtk] at h3; exact Out.noConfusion h3
        | some tk =>
          simp only [hrtk] at h3
          by_cases htk : tk = kt
          · rw [if_pos htk] at h3
            cases hrtv : reflectTypeOf (anyOut rv) with
            | none => simp only [hrtv] at h3; exact Out.noConfusion h3
            | some tv =>
              simp only [hrtv] at h3
              by_cases htv : tv = vt
              · rw [if_pos htv] at h3
                have hRk : Repro heap venv kt (anyOut rk) := by
                  refine ⟨?_, rk, rfl, (ihA _ _ _ _ hk hpv.1.1).1⟩
                  rw [hrtk, htk]
                have hRv : Repro heap venv vt (anyOut rv) := by
                  refine ⟨?_, rv, rfl, (ihA _ _ _ _ hv2 hpv.1.2).1⟩
                  rw [hrtv, htv]
                exact ihEnt _ _ _ _ _ _ _ h3 hpv.2
                  (reproE_upsert hRk hRv acc hrep) (keysOf_upsert_nodup hnd)
              · rw [if_neg htv] at h3
                exact ihEnt _ _ _ _ _ _ _ h3 hpv.2 hrep hnd
          · rw [if_neg htk] at h3
            exact ihEnt _ _ _ _ _ _ _ h3 hpv.2 hrep hnd

/-! ## Claim C10 -/

/-- C10 counterexample: redaction is NOT idempotent for every input
attribute.  In `c10val` — a struct holding `M1 map[int]*Nested{1: p}`
and `M2 map[*Nested]string{p: "x"}` — the first pass redacts `M1`'s
value, marking `p` in the cycle tracker, then drops the entry on key
assignability (`int` became `int64`); `M2`'s key `p` is therefore
already visited, passes through verbatim, stays assignable to the
pointer key type, and is re-inserted.  The second pass starts a fresh
tracker and never walks the dropped `M1` entry, so `M2`'s key is now
dereferenced and redacted into a bare `Nested` struct, fails key
assignability, and the entry is dropped: the second application changes
the attribute again — `ReplaceAttr (g, ReplaceAttr (g, a)) ≠
ReplaceAttr (g, a)`. -/
theorem C10_counterexample :
    ReplaceAttr heap0 venv0 30 [] ⟨"k", .anyV c10val⟩ [] =
      .ok (⟨"k", .anyV c10red1⟩, []) ∧
    ReplaceAttr heap0 venv0 30 [] ⟨"k", .anyV c10red1⟩ [] =
      .ok (⟨"k", .anyV c10red2⟩, []) ∧
    c10red2 ≠ c10red1 := by
  refine ⟨by decide, by decide, by decide⟩

/-- C10 (corrected, amended): idempotence does hold on the reference-
and valuer-free domain (`attrOK`: a non-group attribute — `slog` only
calls `ReplaceAttr` on non-group attributes — whose payload contains no
pointer and no valuer in walked positions).  There redaction is
deterministic and independent of the cycle tracker, so if a first
application completes, it leaves the group heap untouched and applying
`ReplaceAttr` to the attribute it returned changes nothing further:
sensitive fields are already zero and no panic occurs on the second
pass.  Outside that domain the property fails (`C10_counterexample`):
maps *drop* entries whose redacted key or value changed type, and
whether a pointer's redaction changes its type depends on the tracker
state the first pass accumulated and the second pass lacks. -/
theorem C10_idempotent {heap : Heap} {venv : Nat → SlogVal} {F : Nat}
    {gs : List String} {a a1 : Attr} {gh gh1 : GHeap}
    (h1 : ReplaceAttr heap venv F gs a gh = .ok (a1, gh1))
    (hok : attrOK a) :
    gh1 = gh ∧ ∃ F2, ReplaceAttr heap venv F2 gs a1 gh1 = .ok (a1, gh1) := by
  obtain ⟨key, val⟩ := a
  simp only [ReplaceAttr] at h1
  obtain ⟨⟨v1, st'⟩, hpv1, hok1⟩ := obind_eq_ok h1
  simp only [Out.ok.injEq, Prod.mk.injEq] at hok1
  obtain ⟨ha1, hgh1⟩ := hok1
  subst ha1
  cases F with
  | zero => exact Out.noConfusion hpv1
  | succ F' =>
    cases val with
    | groupV g => exact hok.elim
    | strVal s =>
      simp only [processValue, Out.ok.injEq, Prod.mk.injEq] at hpv1
      obtain ⟨rfl, rfl⟩ := hpv1
      exact ⟨hgh1.symm ▸ rfl, 1, by rw [← hgh1]; rfl⟩
    | int64Val n =>
      simp only [processValue, Out.ok.injEq, Prod.mk.injEq] at hpv1
      obtain ⟨rfl, rfl⟩ := hpv1
      exact ⟨hgh1.symm ▸ rfl, 1, by rw [← hgh1]; rfl⟩
    | boolVal b =>
      simp only [processValue, Out.ok.injEq, Prod.mk.injEq] at hpv1
      obtain ⟨rfl, rfl⟩ := hpv1
      exact ⟨hgh1.symm ▸ rfl, 1, by rw [← hgh1]; rfl⟩
    | anyV x =>
      have hx : pvFreeV x = true := hok
      simp only [processValue, pvFree_isLogValuer hx] at hpv1
      have hst : st' = ⟨[], gh⟩ := processAny_state_pres hx hpv1
      have hgh : gh1 = gh := by rw [← hgh1, hst]
      obtain ⟨f2, hf2⟩ := ((refix heap venv F').1 x _ _ _ hpv1 hx).2 ⟨[], gh1⟩
      refine ⟨hgh, f2, ?_⟩
      simp only [ReplaceAttr, hf2, obind_ok]

/-- Witness for `C10_idempotent`: redacting `slog.Any("k", nestedVal)`
zeroes `Secret` and leaves the group heap alone; a second application
must reproduce the redacted attribute exactly. -/
theorem C10_witness :
    ([] : GHeap) = [] ∧ ∃ F2, ReplaceAttr heap0 venv0 F2 []
      ⟨"k", .anyV nestedRed⟩ [] = .ok (⟨"k", .anyV nestedRed⟩, []) :=
  C10_idempotent
    (show ReplaceAttr heap0 venv0 10 [] ⟨"k", .anyV nestedVal⟩ [] =
      .ok (⟨"k", .anyV nestedRed⟩, []) by decide)
    (show pvFreeV nestedVal = true by decide)

end Sentinel
